import Mathlib

/-!
A shallow embedding of the A* pathfinding program in `Astar.py`.

The source keeps all cell state in a `color` field (color-as-status):
WHITE = empty, RED = closed, GREEN = open, BLACK = barrier,
ORANGE = start, TURQUOISE = end, PURPLE = path.

The embedding models one run of `algorithm(draw, grid, start, end)`:
grid cells are positions `(row, col)`, the priority queue is a list of
`(f_score, count, node)` entries popped at the lexicographically least
key, and every status mutation (`make_open`, `make_closed`, `make_path`,
`make_end`) is additionally recorded in an event trace so that claims
about what the `draw` callback can observe become claims about the trace.
-/

namespace Astar

/-- The colors the source uses as status tags. -/
inductive Color where
  | white | red | green | black | orange | turquoise | purple
deriving DecidableEq, Repr

/-- A grid position `(row, col)`; Python `Node` objects are uniquely
identified by their position. -/
abbrev Pos := ℕ × ℕ

/-- `h(p1, p2)`: the Manhattan-distance heuristic (`abs(x1 - x2) + abs(y1 - y2)`). -/
def h (p q : Pos) : ℕ :=
  (((p.1 : ℤ) - q.1).natAbs) + (((p.2 : ℤ) - q.2).natAbs)

/-- `Node.update_neighbors`: the list of axis-aligned in-bounds non-barrier
neighbors of `p`, in source order DOWN, UP, RIGHT, LEFT, computed from the
current colors. -/
def updateNeighbors (R : ℕ) (color : Pos → Color) (p : Pos) : List Pos :=
  (if p.1 < R - 1 ∧ color (p.1 + 1, p.2) ≠ Color.black then [(p.1 + 1, p.2)] else []) ++
  (if 0 < p.1 ∧ color (p.1 - 1, p.2) ≠ Color.black then [(p.1 - 1, p.2)] else []) ++
  (if p.2 < R - 1 ∧ color (p.1, p.2 + 1) ≠ Color.black then [(p.1, p.2 + 1)] else []) ++
  (if 0 < p.2 ∧ color (p.1, p.2 - 1) ≠ Color.black then [(p.1, p.2 - 1)] else [])

/-- `make_grid(rows, width)` as the row-major list of node positions. -/
def makeGrid (rows : ℕ) : List (List Pos) :=
  (List.range rows).map fun i => (List.range rows).map fun j => (i, j)

/-- Python list indexing `l[i]`: non-negative indices index from the front,
negative indices `-len ≤ i < 0` silently wrap to `len + i`, and anything
else raises `IndexError` (modelled as `none`). -/
def pyGet {α : Type} (l : List α) (i : ℤ) : Option α :=
  let j := if i < 0 then i + l.length else i
  if 0 ≤ j ∧ j < l.length then l.get? j.toNat else none

/-- `grid[row][col]` on the grid built by `make_grid`, with Python indexing
semantics in both coordinates. -/
def gridLookup (rows : ℕ) (row col : ℤ) : Option Pos :=
  (pyGet (makeGrid rows) row).bind fun r => pyGet r col

/-- One queue entry `(f_score, count, node)` as stored by
`open_set.put((f_score[neighbor], count, neighbor))`. -/
abbrev Entry := ℕ × ℕ × Pos

/-- Strict lexicographic comparison of the `(f_score, count)` key of two
entries, as Python tuple comparison orders them (node fields are never
compared because counts are distinct). -/
def keyLe (a b : Entry) : Bool :=
  a.1 < b.1 || (a.1 == b.1 && a.2.1 ≤ b.2.1)

/-- `PriorityQueue.get()`: remove and return the entry with the least
`(f_score, count)` key, keeping the remaining entries in order. -/
def popMinQ : List Entry → Option (Entry × List Entry)
  | [] => none
  | x :: xs =>
    match popMinQ xs with
    | none => some (x, [])
    | some (m, rest) => if keyLe x m then some (x, xs) else some (m, x :: rest)

/-- The mutable state of one `algorithm` run: the priority queue
(`open_set`), its membership mirror (`open_set_hash`), the three score
dictionaries (`none` plays the role of `float("inf")` / no entry), the
push counter `count`, the cells' colors, and the trace of status
mutations performed so far. -/
structure SState where
  queue : List Entry
  hash : List Pos
  cameFrom : Pos → Option Pos
  gScore : Pos → Option ℕ
  fScore : Pos → Option ℕ
  count : ℕ
  color : Pos → Color
  events : List (Pos × Color)

/-- The immutable inputs of one `algorithm` run: grid size, the `start`
and `end` nodes, and the adjacency lists frozen by the
`update_neighbors` pass that `main` performs before calling `algorithm`. -/
structure Config where
  R : ℕ
  start : Pos
  goal : Pos
  nbrs : Pos → List Pos

/-- A status mutation `node.make_<c>()`: overwrite the color and record
the mutation in the event trace. -/
def mark (s : SState) (p : Pos) (c : Color) : SState :=
  { s with color := fun q => if q = p then c else s.color q,
           events := s.events ++ [(p, c)] }

/-- `temp_g_score < g_score[neighbor]` with `none` standing for infinity. -/
def ltG (t : ℕ) : Option ℕ → Bool
  | none => true
  | some v => t < v

/-- The score updates of a successful relaxation:
`came_from[neighbor] = current`, `g_score[neighbor] = temp_g_score`,
`f_score[neighbor] = temp_g_score + h(neighbor, end)`. -/
def relaxScores (cfg : Config) (current : Pos) (s : SState) (n : Pos) (temp : ℕ) : SState :=
  { s with cameFrom := fun q => if q = n then some current else s.cameFrom q,
           gScore := fun q => if q = n then some temp else s.gScore q,
           fScore := fun q => if q = n then some (temp + h n cfg.goal) else s.fScore q }

/-- `count += 1; open_set.put((f_score[neighbor], count, neighbor));
open_set_hash.add(neighbor); neighbor.make_open()`. -/
def pushOpen (s : SState) (n : Pos) (fn : ℕ) : SState :=
  mark { s with count := s.count + 1,
                queue := s.queue ++ [(fn, s.count + 1, n)],
                hash := n :: s.hash } n Color.green

/-- The body of `for neighbor in current.neighbors` for a single neighbor:
relax the neighbor's scores and, when it is not already an open-set
member, push it and mark it open.  `g_score[current]` is re-read from the
state exactly as the source re-evaluates it each iteration. -/
def relaxOne (cfg : Config) (current : Pos) (s : SState) (n : Pos) : SState :=
  match s.gScore current with
  | none => s
  | some gc =>
    let temp := gc + 1
    if ltG temp (s.gScore n) then
      let s' := relaxScores cfg current s n temp
      if n ∈ s'.hash then s' else pushOpen s' n (temp + h n cfg.goal)
    else s

/-- `reconstruct_path(came_from, current, draw)`: walk the predecessor
chain, marking each predecessor `purple`.  The source loops `while
current in came_from`; the embedding carries fuel, and the fuel passed by
`step` is proved sufficient on all reachable states. -/
def reconstructPath (fuel : ℕ) (s : SState) (current : Pos) : SState :=
  match fuel with
  | 0 => s
  | fuel + 1 =>
    match s.cameFrom current with
    | none => s
    | some prev => reconstructPath fuel (mark s prev Color.purple) prev

/-- The outcome of one iteration of `while not open_set.empty()`:
either the loop body ran and the loop continues, or `algorithm`
returned `b` in state `s`. -/
inductive LoopRes where
  | done (b : Bool) (s : SState)
  | cont (s : SState)

/-- One iteration of the main loop: pop the least entry, remove it from
the hash, return on reaching `end` (reconstructing the path and restoring
`end`'s color), otherwise relax all neighbors and close `current` unless
it is `start`. -/
def step (cfg : Config) (s : SState) : LoopRes :=
  match popMinQ s.queue with
  | none => LoopRes.done false s
  | some (e, rest) =>
    let current := e.2.2
    let s₁ : SState := { s with queue := rest, hash := s.hash.erase current }
    if current = cfg.goal then
      let s₂ := reconstructPath (cfg.R * cfg.R + 1) s₁ cfg.goal
      LoopRes.done true (mark s₂ cfg.goal Color.turquoise)
    else
      let s₂ := (cfg.nbrs current).foldl (relaxOne cfg current) s₁
      LoopRes.cont (if current = cfg.start then s₂ else mark s₂ current Color.red)

/-- The state `algorithm` sets up before entering its loop: `count = 0`,
the queue holding `(0, 0, start)`, `g_score[start] = 0`,
`f_score[start] = h(start, end)`, `open_set_hash = start`. -/
def initState (cfg : Config) (color0 : Pos → Color) : SState :=
  { queue := [(0, 0, cfg.start)]
    hash := [cfg.start]
    cameFrom := fun _ => none
    gScore := fun q => if q = cfg.start then some 0 else none
    fScore := fun q => if q = cfg.start then some (h cfg.start cfg.goal) else none
    count := 0
    color := color0
    events := [] }

/-- Run the main loop for at most `fuel` iterations; `none` means the
fuel ran out (proved unreachable for the fuel `algorithm` supplies). -/
def runFuel (cfg : Config) : ℕ → SState → Option (Bool × SState)
  | 0, _ => none
  | fuel + 1, s =>
    match step cfg s with
    | LoopRes.done b s' => some (b, s')
    | LoopRes.cont s' => runFuel cfg fuel s'

/-- An iteration bound sufficient for the main loop on an `R × R` grid. -/
def algorithmFuel (cfg : Config) : ℕ :=
  cfg.R * cfg.R * (cfg.R * cfg.R) + 2

/-- `algorithm(draw, grid, start, end)`: run the main loop from the
initial search state over the given cell colors. -/
def algorithm (cfg : Config) (color0 : Pos → Color) : Option (Bool × SState) :=
  runFuel cfg (algorithmFuel cfg) (initState cfg color0)

/-- Follow the `came_from` chain for at most `m` steps (stopping early at
a node with no entry). -/
def cfIter (cf : Pos → Option Pos) : ℕ → Pos → Pos
  | 0, p => p
  | m + 1, p =>
    match cf p with
    | none => p
    | some q => cfIter cf m q

/-- The list of nodes `reconstruct_path` visits (and marks) when started
at `current`: the strict predecessors of `current` along `came_from`. -/
def chainList (fuel : ℕ) (cf : Pos → Option Pos) (current : Pos) : List Pos :=
  match fuel with
  | 0 => []
  | fuel + 1 =>
    match cf current with
    | none => []
    | some prev => prev :: chainList fuel cf prev

/-! ### Basic facts about the state operations -/

@[simp] lemma mark_queue (s : SState) (p : Pos) (c : Color) : (mark s p c).queue = s.queue := rfl
@[simp] lemma mark_hash (s : SState) (p : Pos) (c : Color) : (mark s p c).hash = s.hash := rfl
@[simp] lemma mark_cameFrom (s : SState) (p : Pos) (c : Color) :
    (mark s p c).cameFrom = s.cameFrom := rfl
@[simp] lemma mark_gScore (s : SState) (p : Pos) (c : Color) : (mark s p c).gScore = s.gScore := rfl
@[simp] lemma mark_fScore (s : SState) (p : Pos) (c : Color) : (mark s p c).fScore = s.fScore := rfl
@[simp] lemma mark_count (s : SState) (p : Pos) (c : Color) : (mark s p c).count = s.count := rfl
@[simp] lemma mark_events (s : SState) (p : Pos) (c : Color) :
    (mark s p c).events = s.events ++ [(p, c)] := rfl
lemma mark_color (s : SState) (p : Pos) (c : Color) (q : Pos) :
    (mark s p c).color q = if q = p then c else s.color q := rfl

@[simp] lemma relaxScores_queue (cfg : Config) (cur : Pos) (s : SState) (n : Pos) (t : ℕ) :
    (relaxScores cfg cur s n t).queue = s.queue := rfl
@[simp] lemma relaxScores_hash (cfg : Config) (cur : Pos) (s : SState) (n : Pos) (t : ℕ) :
    (relaxScores cfg cur s n t).hash = s.hash := rfl
@[simp] lemma relaxScores_count (cfg : Config) (cur : Pos) (s : SState) (n : Pos) (t : ℕ) :
    (relaxScores cfg cur s n t).count = s.count := rfl
@[simp] lemma relaxScores_color (cfg : Config) (cur : Pos) (s : SState) (n : Pos) (t : ℕ) :
    (relaxScores cfg cur s n t).color = s.color := rfl
@[simp] lemma relaxScores_events (cfg : Config) (cur : Pos) (s : SState) (n : Pos) (t : ℕ) :
    (relaxScores cfg cur s n t).events = s.events := rfl
lemma relaxScores_gScore (cfg : Config) (cur : Pos) (s : SState) (n : Pos) (t : ℕ) (q : Pos) :
    (relaxScores cfg cur s n t).gScore q = if q = n then some t else s.gScore q := rfl
lemma relaxScores_cameFrom (cfg : Config) (cur : Pos) (s : SState) (n : Pos) (t : ℕ) (q : Pos) :
    (relaxScores cfg cur s n t).cameFrom q = if q = n then some cur else s.cameFrom q := rfl
lemma relaxScores_fScore (cfg : Config) (cur : Pos) (s : SState) (n : Pos) (t : ℕ) (q : Pos) :
    (relaxScores cfg cur s n t).fScore q =
      if q = n then some (t + h n cfg.goal) else s.fScore q := rfl

@[simp] lemma pushOpen_queue (s : SState) (n : Pos) (fn : ℕ) :
    (pushOpen s n fn).queue = s.queue ++ [(fn, s.count + 1, n)] := rfl
@[simp] lemma pushOpen_hash (s : SState) (n : Pos) (fn : ℕ) :
    (pushOpen s n fn).hash = n :: s.hash := rfl
@[simp] lemma pushOpen_count (s : SState) (n : Pos) (fn : ℕ) :
    (pushOpen s n fn).count = s.count + 1 := rfl
@[simp] lemma pushOpen_gScore (s : SState) (n : Pos) (fn : ℕ) :
    (pushOpen s n fn).gScore = s.gScore := rfl
@[simp] lemma pushOpen_cameFrom (s : SState) (n : Pos) (fn : ℕ) :
    (pushOpen s n fn).cameFrom = s.cameFrom := rfl
@[simp] lemma pushOpen_fScore (s : SState) (n : Pos) (fn : ℕ) :
    (pushOpen s n fn).fScore = s.fScore := rfl
@[simp] lemma pushOpen_events (s : SState) (n : Pos) (fn : ℕ) :
    (pushOpen s n fn).events = s.events ++ [(n, Color.green)] := rfl
lemma pushOpen_color (s : SState) (n : Pos) (fn : ℕ) (q : Pos) :
    (pushOpen s n fn).color q = if q = n then Color.green else s.color q := rfl

/-- The three possible outcomes of relaxing one neighbor. -/
lemma relaxOne_cases (cfg : Config) (cur : Pos) (s : SState) (n : Pos) :
    relaxOne cfg cur s n = s ∨
    ∃ gc, s.gScore cur = some gc ∧ ltG (gc + 1) (s.gScore n) = true ∧
      ((n ∈ s.hash ∧ relaxOne cfg cur s n = relaxScores cfg cur s n (gc + 1)) ∨
       (n ∉ s.hash ∧ relaxOne cfg cur s n =
          pushOpen (relaxScores cfg cur s n (gc + 1)) n (gc + 1 + h n cfg.goal))) := by
  unfold relaxOne
  cases hg : s.gScore cur with
  | none => exact Or.inl rfl
  | some gc =>
    by_cases hlt : ltG (gc + 1) (s.gScore n) = true
    · refine Or.inr ⟨gc, rfl, hlt, ?_⟩
      by_cases hm : n ∈ s.hash
      · exact Or.inl ⟨hm, by simp [hlt, hm]⟩
      · exact Or.inr ⟨hm, by simp [hlt, hm]⟩
    · exact Or.inl (by simp [hlt])

/-! ### The priority queue -/

lemma keyLe_refl (a : Entry) : keyLe a a = true := by simp [keyLe]

lemma keyLe_total (a b : Entry) : keyLe a b = true ∨ keyLe b a = true := by
  simp only [keyLe, Bool.or_eq_true, Bool.and_eq_true, decide_eq_true_eq, beq_iff_eq]
  omega

lemma keyLe_trans {a b c : Entry} (hab : keyLe a b = true) (hbc : keyLe b c = true) :
    keyLe a c = true := by
  simp only [keyLe, Bool.or_eq_true, Bool.and_eq_true, decide_eq_true_eq, beq_iff_eq] at *
  omega

lemma popMinQ_cons (x : Entry) (xs : List Entry) : (popMinQ (x :: xs)).isSome := by
  cases hx : popMinQ xs with
  | none => simp [popMinQ, hx]
  | some p => simp only [popMinQ, hx]; split <;> simp

/-- Specification of `popMinQ`: it returns an element of the list that is
least in the `(f_score, count)` order, and the rest of the list in order. -/
lemma popMinQ_spec :
    ∀ (l : List Entry) (e : Entry) (rest : List Entry), popMinQ l = some (e, rest) →
      e ∈ l ∧ List.Sublist rest l ∧ rest.length + 1 = l.length ∧
        ∀ e' ∈ l, keyLe e e' = true := by
  intro l
  induction l with
  | nil => intro e rest hrest; simp [popMinQ] at hrest
  | cons x xs ih =>
    intro e rest hrest
    rw [popMinQ] at hrest
    cases hxs : popMinQ xs with
    | none =>
      have hnil : xs = [] := by
        cases xs with
        | nil => rfl
        | cons y ys => have := popMinQ_cons y ys; rw [hxs] at this; simp at this
      rw [hxs] at hrest
      obtain ⟨rfl, rfl⟩ : x = e ∧ ([] : List Entry) = rest := by
        constructor <;> cases hrest <;> rfl
      subst hnil
      exact ⟨List.mem_singleton_self x, List.nil_sublist _, rfl, by
        intro e' he'; rw [List.mem_singleton] at he'; subst he'; exact keyLe_refl _⟩
    | some p =>
      obtain ⟨m, r⟩ := p
      obtain ⟨hmem, hsub, hlen, hmin⟩ := ih m r hxs
      rw [hxs] at hrest
      dsimp only at hrest
      by_cases hk : keyLe x m = true
      · rw [if_pos hk] at hrest
        obtain ⟨rfl, rfl⟩ : x = e ∧ xs = rest := by
          constructor <;> cases hrest <;> rfl
        refine ⟨List.mem_cons_self _ _, List.sublist_cons_self _ _, rfl, ?_⟩
        intro e' he'
        rcases List.mem_cons.mp he' with rfl | he'
        · exact keyLe_refl _
        · exact keyLe_trans hk (hmin e' he')
      · rw [if_neg hk] at hrest
        obtain ⟨rfl, rfl⟩ : m = e ∧ x :: r = rest := by
          constructor <;> cases hrest <;> rfl
        refine ⟨List.mem_cons_of_mem _ hmem, List.Sublist.cons₂ _ hsub, by simp [← hlen], ?_⟩
        intro e' he'
        rcases List.mem_cons.mp he' with rfl | he'
        · rcases keyLe_total e' m with hk' | hk'
          · exact absurd hk' hk
          · exact hk'
        · exact hmin e' he'

lemma popMinQ_none_iff (l : List Entry) : popMinQ l = none ↔ l = [] := by
  cases l with
  | nil => simp [popMinQ]
  | cons x xs =>
    have := popMinQ_cons x xs
    constructor
    · intro hx; rw [hx] at this; simp at this
    · intro hx; cases hx

/-! ### `reconstruct_path` only recolors the `came_from` chain -/

lemma reconstructPath_cameFrom :
    ∀ (f : ℕ) (s : SState) (cur : Pos), (reconstructPath f s cur).cameFrom = s.cameFrom := by
  intro f
  induction f with
  | zero => intro s cur; rfl
  | succ f ih =>
    intro s cur
    rw [reconstructPath]
    cases s.cameFrom cur with
    | none => rfl
    | some prev => rw [ih]; rfl

lemma reconstructPath_gScore :
    ∀ (f : ℕ) (s : SState) (cur : Pos), (reconstructPath f s cur).gScore = s.gScore := by
  intro f
  induction f with
  | zero => intro s cur; rfl
  | succ f ih =>
    intro s cur
    rw [reconstructPath]
    cases s.cameFrom cur with
    | none => rfl
    | some prev => rw [ih]; rfl

lemma reconstructPath_queue :
    ∀ (f : ℕ) (s : SState) (cur : Pos), (reconstructPath f s cur).queue = s.queue := by
  intro f
  induction f with
  | zero => intro s cur; rfl
  | succ f ih =>
    intro s cur
    rw [reconstructPath]
    cases s.cameFrom cur with
    | none => rfl
    | some prev => rw [ih]; rfl

lemma reconstructPath_hash :
    ∀ (f : ℕ) (s : SState) (cur : Pos), (reconstructPath f s cur).hash = s.hash := by
  intro f
  induction f with
  | zero => intro s cur; rfl
  | succ f ih =>
    intro s cur
    rw [reconstructPath]
    cases s.cameFrom cur with
    | none => rfl
    | some prev => rw [ih]; rfl

/-- The cells `reconstruct_path` recolors are exactly the chain cells;
every other cell keeps its color. -/
lemma reconstructPath_color :
    ∀ (f : ℕ) (s : SState) (cur p : Pos),
      (reconstructPath f s cur).color p =
        if p ∈ chainList f s.cameFrom cur then Color.purple else s.color p := by
  intro f
  induction f with
  | zero => intro s cur p; simp [reconstructPath, chainList]
  | succ f ih =>
    intro s cur p
    rw [reconstructPath, chainList]
    cases hc : s.cameFrom cur with
    | none => simp
    | some prev =>
      rw [ih]
      simp only [mark_cameFrom, List.mem_cons, mark_color]
      by_cases hp : p ∈ chainList f s.cameFrom prev
      · simp [hp]
      · by_cases hpp : p = prev <;> simp [hp, hpp]

/-- The events `reconstruct_path` appends are exactly purple markings of
the chain cells, in chain order. -/
lemma reconstructPath_events :
    ∀ (f : ℕ) (s : SState) (cur : Pos),
      (reconstructPath f s cur).events =
        s.events ++ (chainList f s.cameFrom cur).map (fun q => (q, Color.purple)) := by
  intro f
  induction f with
  | zero => intro s cur; simp [reconstructPath, chainList]
  | succ f ih =>
    intro s cur
    rw [reconstructPath, chainList]
    cases hc : s.cameFrom cur with
    | none => simp
    | some prev =>
      rw [ih]
      simp

/-! ### Reachability of loop states and runs -/

/-- One continuing iteration of the main loop. -/
def Steps (cfg : Config) (s s' : SState) : Prop := step cfg s = LoopRes.cont s'

/-- States the main loop can be in, starting from `algorithm`'s initial
state. -/
def Reachable (cfg : Config) (color0 : Pos → Color) (s : SState) : Prop :=
  Relation.ReflTransGen (Steps cfg) (initState cfg color0) s

lemma reachable_init (cfg : Config) (color0 : Pos → Color) :
    Reachable cfg color0 (initState cfg color0) :=
  Relation.ReflTransGen.refl

/-- Invariance principle: a predicate holding initially and preserved by
loop iterations holds at every reachable state. -/
lemma reachable_invariant {cfg : Config} {color0 : Pos → Color} {P : SState → Prop}
    (h0 : P (initState cfg color0)) (hstep : ∀ s s', P s → Steps cfg s s' → P s') :
    ∀ {s}, Reachable cfg color0 s → P s := by
  intro s hr
  induction hr with
  | refl => exact h0
  | tail _ hbc ih => exact hstep _ _ ih hbc

lemma runFuel_mono :
    ∀ (f f' : ℕ) (cfg : Config) (s : SState) (r : Bool × SState), f ≤ f' →
      runFuel cfg f s = some r → runFuel cfg f' s = some r := by
  intro f
  induction f with
  | zero => intro f' cfg s r _ hrun; simp [runFuel] at hrun
  | succ f ih =>
    intro f' cfg s r hle hrun
    obtain ⟨f'', rfl⟩ : ∃ f'', f' = f'' + 1 := ⟨f' - 1, by omega⟩
    rw [runFuel] at hrun ⊢
    cases hstep : step cfg s with
    | done b s' => rw [hstep] at hrun; exact hrun
    | cont s' => rw [hstep] at hrun; exact ih f'' cfg s' r (by omega) hrun

/-- A successful run decomposes into iterated loop steps followed by a
final returning step. -/
lemma runFuel_reach :
    ∀ (f : ℕ) (cfg : Config) (s : SState) (b : Bool) (s' : SState),
      runFuel cfg f s = some (b, s') →
      ∃ t, Relation.ReflTransGen (Steps cfg) s t ∧ step cfg t = LoopRes.done b s' := by
  intro f
  induction f with
  | zero => intro cfg s b s' hrun; simp [runFuel] at hrun
  | succ f ih =>
    intro cfg s b s' hrun
    rw [runFuel] at hrun
    cases hstep : step cfg s with
    | done b₀ s₀ =>
      rw [hstep] at hrun
      obtain ⟨rfl, rfl⟩ : b₀ = b ∧ s₀ = s' := by
        constructor <;> cases hrun <;> rfl
      exact ⟨s, Relation.ReflTransGen.refl, hstep⟩
    | cont s₀ =>
      rw [hstep] at hrun
      obtain ⟨t, hreach, hdone⟩ := ih cfg s₀ b s' hrun
      exact ⟨t, Relation.ReflTransGen.head hstep hreach, hdone⟩

/-- Every result of `algorithm` comes from a reachable state taking a
returning step. -/
lemma algorithm_final {cfg : Config} {color0 : Pos → Color} {b : Bool} {s' : SState}
    (halg : algorithm cfg color0 = some (b, s')) :
    ∃ t, Reachable cfg color0 t ∧ step cfg t = LoopRes.done b s' :=
  runFuel_reach _ cfg _ b s' halg

/-- Decomposition of a returning step: either the frontier was exhausted
(`return False`, state untouched), or `end` was popped, the path
reconstructed and `end` recolored (`return True`). -/
lemma step_done_cases {cfg : Config} {s : SState} {b : Bool} {s' : SState}
    (hd : step cfg s = LoopRes.done b s') :
    (b = false ∧ s' = s ∧ popMinQ s.queue = none) ∨
    (b = true ∧ ∃ e rest, popMinQ s.queue = some (e, rest) ∧ e.2.2 = cfg.goal ∧
      s' = mark (reconstructPath (cfg.R * cfg.R + 1)
        { s with queue := rest, hash := s.hash.erase cfg.goal } cfg.goal)
        cfg.goal Color.turquoise) := by
  unfold step at hd
  cases hq : popMinQ s.queue with
  | none =>
    rw [hq] at hd
    refine Or.inl ⟨?_, ?_, rfl⟩ <;> cases hd <;> rfl
  | some p =>
    obtain ⟨e, rest⟩ := p
    rw [hq] at hd
    dsimp only at hd
    by_cases hg : e.2.2 = cfg.goal
    · rw [if_pos hg] at hd
      refine Or.inr ⟨?_, e, rest, rfl, hg, ?_⟩ <;> rw [hg] at hd <;> cases hd <;> rfl
    · rw [if_neg hg] at hd
      cases hd

/-- Decomposition of a continuing step: the popped node is not `end`, its
neighbors are relaxed in order, and it is closed unless it is `start`. -/
lemma step_cont_cases {cfg : Config} {s s' : SState} (hd : step cfg s = LoopRes.cont s') :
    ∃ e rest, popMinQ s.queue = some (e, rest) ∧ e.2.2 ≠ cfg.goal ∧
      s' = (if e.2.2 = cfg.start
            then (cfg.nbrs e.2.2).foldl (relaxOne cfg e.2.2)
                   { s with queue := rest, hash := s.hash.erase e.2.2 }
            else mark ((cfg.nbrs e.2.2).foldl (relaxOne cfg e.2.2)
                   { s with queue := rest, hash := s.hash.erase e.2.2 }) e.2.2 Color.red) := by
  unfold step at hd
  cases hq : popMinQ s.queue with
  | none => rw [hq] at hd; cases hd
  | some p =>
    obtain ⟨e, rest⟩ := p
    rw [hq] at hd
    dsimp only at hd
    by_cases hg : e.2.2 = cfg.goal
    · rw [if_pos hg] at hd; cases hd
    · rw [if_neg hg] at hd
      refine ⟨e, rest, rfl, hg, ?_⟩
      by_cases hs : e.2.2 = cfg.start
      · rw [if_pos hs] at hd ⊢; cases hd; rfl
      · rw [if_neg hs] at hd ⊢; cases hd; rfl

/-- Preservation of a predicate along a left fold. -/
lemma foldl_pres {α β : Type} {f : β → α → β} {P : β → Prop} :
    ∀ (l : List α) (b : β), P b → (∀ b' a, a ∈ l → P b' → P (f b' a)) → P (l.foldl f b) := by
  intro l
  induction l with
  | nil => intro b hb _; exact hb
  | cons x xs ih =>
    intro b hb hf
    exact ih (f b x) (hf b x (List.mem_cons_self _ _) hb)
      fun b' a ha hb' => hf b' a (List.mem_cons_of_mem _ ha) hb'

end Astar

namespace Astar

lemma mem_ite_singleton {α : Type} {c : Prop} [Decidable c] {x y : α} :
    (y ∈ if c then [x] else []) ↔ c ∧ y = x := by
  split_ifs with hc <;> simp [hc]

lemma mem_updateNeighbors (R : ℕ) (color : Pos → Color) (p q : Pos) :
    q ∈ updateNeighbors R color p ↔
      (p.1 < R - 1 ∧ color (p.1 + 1, p.2) ≠ Color.black ∧ q = (p.1 + 1, p.2)) ∨
      (0 < p.1 ∧ color (p.1 - 1, p.2) ≠ Color.black ∧ q = (p.1 - 1, p.2)) ∨
      (p.2 < R - 1 ∧ color (p.1, p.2 + 1) ≠ Color.black ∧ q = (p.1, p.2 + 1)) ∨
      (0 < p.2 ∧ color (p.1, p.2 - 1) ≠ Color.black ∧ q = (p.1, p.2 - 1)) := by
  simp only [updateNeighbors, List.mem_append, mem_ite_singleton]
  tauto

/-- C8: after the adjacency pass, a grid cell's neighbor list holds
exactly the axis-aligned in-bounds non-Barrier cells — no diagonals, no
out-of-bounds entries, no Barrier entries, none omitted, no duplicates. -/
theorem C8_neighbors_exact (R : ℕ) (color : Pos → Color) (p q : Pos)
    (hp1 : p.1 < R) (hp2 : p.2 < R) :
    (q ∈ updateNeighbors R color p ↔
      ((q.1 = p.1 + 1 ∧ q.2 = p.2) ∨ (q.1 + 1 = p.1 ∧ q.2 = p.2) ∨
       (q.1 = p.1 ∧ q.2 = p.2 + 1) ∨ (q.1 = p.1 ∧ q.2 + 1 = p.2)) ∧
      q.1 < R ∧ q.2 < R ∧ color q ≠ Color.black) ∧
    (updateNeighbors R color p).Nodup := by
  constructor
  · rw [mem_updateNeighbors]
    constructor
    · rintro (⟨hb, hc, rfl⟩ | ⟨hb, hc, rfl⟩ | ⟨hb, hc, rfl⟩ | ⟨hb, hc, rfl⟩)
      · exact ⟨Or.inl ⟨rfl, rfl⟩, by omega, by omega, hc⟩
      · exact ⟨Or.inr (Or.inl ⟨by omega, rfl⟩), by omega, by omega, hc⟩
      · exact ⟨Or.inr (Or.inr (Or.inl ⟨rfl, rfl⟩)), by omega, by omega, hc⟩
      · exact ⟨Or.inr (Or.inr (Or.inr ⟨rfl, by omega⟩)), by omega, by omega, hc⟩
    · rintro ⟨(⟨h1, h2⟩ | ⟨h1, h2⟩ | ⟨h1, h2⟩ | ⟨h1, h2⟩), hqr, hqc, hcol⟩
      · refine Or.inl ⟨by omega, ?_, ?_⟩ <;>
          [skip; skip] <;>
          · have hq : q = (p.1 + 1, p.2) := Prod.ext h1 h2
            first | (rw [← hq]; exact hcol) | exact hq
      · refine Or.inr (Or.inl ⟨by omega, ?_, ?_⟩) <;>
          · have hq : q = (p.1 - 1, p.2) := Prod.ext (by omega) h2
            first | (rw [← hq]; exact hcol) | exact hq
      · refine Or.inr (Or.inr (Or.inl ⟨by omega, ?_, ?_⟩)) <;>
          · have hq : q = (p.1, p.2 + 1) := Prod.ext h1 h2
            first | (rw [← hq]; exact hcol) | exact hq
      · refine Or.inr (Or.inr (Or.inr ⟨by omega, ?_, ?_⟩)) <;>
          · have hq : q = (p.1, p.2 - 1) := Prod.ext h1 (by omega)
            first | (rw [← hq]; exact hcol) | exact hq
  · unfold updateNeighbors
    split_ifs with h1 h2 h3 h4 <;>
      refine List.Nodup.append ?_ ?_ ?_ <;>
      try refine List.Nodup.append ?_ ?_ ?_
    all_goals
      simp_all [List.disjoint_left, Prod.mk.injEq]
    all_goals omega

end Astar

namespace Astar

/-- The index a Python list access `l[i]` actually reads when it succeeds. -/
def pyIdx (len : ℕ) (i : ℤ) : ℕ := (if i < 0 then i + len else i).toNat

lemma pyGet_map_range {α : Type} (n : ℕ) (f : ℕ → α) (i : ℤ) :
    pyGet ((List.range n).map f) i =
      if -(n : ℤ) ≤ i ∧ i < n then some (f (pyIdx n i)) else none := by
  unfold pyGet pyIdx
  simp only [List.length_map, List.length_range]
  by_cases hneg : i < 0
  · rw [if_pos hneg]
    by_cases hin : -(n : ℤ) ≤ i
    · rw [if_pos ⟨by omega, by omega⟩, if_pos ⟨by omega, by omega⟩]
      have hlt : (i + n).toNat < n := by omega
      rw [List.get?_map, List.get?_range hlt]
      rfl
    · rw [if_neg (by omega), if_neg (by push_neg; intro hc; omega)]
  · rw [if_neg hneg]
    by_cases hin : i < (n : ℤ)
    · rw [if_pos ⟨by omega, hin⟩, if_pos ⟨by omega, hin⟩]
      have hlt : i.toNat < n := by omega
      rw [List.get?_map, List.get?_range hlt]
      rfl
    · rw [if_neg (by omega), if_neg (by push_neg; intro hc; omega)]

/-- Amended C9: a lookup `grid[row][col]` fails only when a coordinate is
at least `rows` or below `-rows`; a negative coordinate in `[-rows, 0)`
silently wraps around and yields another cell of the grid. -/
theorem C9_lookup_wrapping (R : ℕ) (row col : ℤ) :
    gridLookup R row col =
      if -(R : ℤ) ≤ row ∧ row < R ∧ -(R : ℤ) ≤ col ∧ col < R
      then some (pyIdx R row, pyIdx R col) else none := by
  unfold gridLookup makeGrid
  rw [pyGet_map_range]
  by_cases hrow : -(R : ℤ) ≤ row ∧ row < R
  · rw [if_pos hrow, Option.some_bind, pyGet_map_range]
    by_cases hcol : -(R : ℤ) ≤ col ∧ col < R
    · rw [if_pos hcol, if_pos ⟨hrow.1, hrow.2, hcol.1, hcol.2⟩]
    · rw [if_neg hcol, if_neg (by tauto)]
  · rw [if_neg hrow, Option.none_bind, if_neg (by tauto)]

/-- C9 fails on the code: the lookup at the out-of-bounds position
`(-1, 0)` of a 2×2 grid does not fail — it silently returns the cell at
`(1, 0)`. -/
theorem C9_counterexample :
    gridLookup 2 (-1) 0 = some (1, 0) ∧ ¬ (0 ≤ (-1 : ℤ)) := by
  constructor
  · rfl
  · decide

end Astar

namespace Astar

/-- Preservation principle for loop iterations: a predicate preserved by
popping, by relaxing any neighbor, and by closing a non-start non-end
node, is preserved by every continuing step. -/
lemma Steps_pres {cfg : Config} {P : SState → Prop}
    (hpop : ∀ s e rest, P s → popMinQ s.queue = some (e, rest) →
      P { s with queue := rest, hash := s.hash.erase e.2.2 })
    (hrelax : ∀ cur s n, P s → n ∈ cfg.nbrs cur → P (relaxOne cfg cur s n))
    (hmark : ∀ s p, P s → p ≠ cfg.start → p ≠ cfg.goal → P (mark s p Color.red)) :
    ∀ s s', P s → Steps cfg s s' → P s' := by
  intro s s' hP hstep
  obtain ⟨e, rest, hq, hgoal, hs'⟩ := step_cont_cases hstep
  have h1 := hpop s e rest hP hq
  have h2 : P ((cfg.nbrs e.2.2).foldl (relaxOne cfg e.2.2)
      { s with queue := rest, hash := s.hash.erase e.2.2 }) :=
    foldl_pres _ _ h1 fun b a ha hb => hrelax e.2.2 b a hb ha
  by_cases hss : e.2.2 = cfg.start
  · rw [hs', if_pos hss]; exact h2
  · rw [hs', if_neg hss]; exact hmark _ _ h2 hss hgoal

/-- The core loop invariant: facts about scores, predecessors, the queue
and the event trace that hold in every reachable loop state. -/
structure CoreInv (cfg : Config) (s : SState) : Prop where
  g0 : s.gScore cfg.start = some 0
  cf_start : s.cameFrom cfg.start = none
  cf_g : ∀ n c, s.cameFrom n = some c →
    ∃ gn gc, s.gScore n = some gn ∧ s.gScore c = some gc ∧ gc < gn
  disc_cf : ∀ n, n ≠ cfg.start → s.gScore n ≠ none → s.cameFrom n ≠ none
  queue_g : ∀ e ∈ s.queue, s.gScore e.2.2 ≠ none
  counts_lt : s.queue.Pairwise fun a b => a.2.1 < b.2.1
  counts_le : ∀ e ∈ s.queue, e.2.1 ≤ s.count
  ev_start_g : (cfg.start, Color.green) ∉ s.events
  ev_start_r : (cfg.start, Color.red) ∉ s.events
  ev_goal_r : (cfg.goal, Color.red) ∉ s.events

lemma coreInv_init (cfg : Config) (c0 : Pos → Color) : CoreInv cfg (initState cfg c0) := by
  constructor
  · simp [initState]
  · simp [initState]
  · intro n c hc; simp [initState] at hc
  · intro n hn hg; simp [initState, hn] at hg
  · intro e he
    simp only [initState, List.mem_singleton] at he
    subst he
    simp [initState]
  · simp [initState]
  · intro e he
    simp only [initState, List.mem_singleton] at he
    subst he
    simp [initState]
  · simp [initState]
  · simp [initState]
  · simp [initState]

lemma coreInv_relaxScores {cfg : Config} {cur : Pos} {s : SState} {n : Pos} {gc : ℕ}
    (hI : CoreInv cfg s) (hgc : s.gScore cur = some gc)
    (hlt : ltG (gc + 1) (s.gScore n) = true) :
    CoreInv cfg (relaxScores cfg cur s n (gc + 1)) ∧ n ≠ cfg.start ∧ cur ≠ n := by
  have hns : n ≠ cfg.start := by
    intro hns
    rw [hns, hI.g0] at hlt
    simp [ltG] at hlt
  have hcn : cur ≠ n := by
    intro hcn
    rw [← hcn, hgc] at hlt
    simp [ltG] at hlt
  refine ⟨?_, hns, hcn⟩
  constructor
  · rw [relaxScores_gScore, if_neg (Ne.symm hns)]; exact hI.g0
  · rw [relaxScores_cameFrom, if_neg (Ne.symm hns)]; exact hI.cf_start
  · intro m c hm
    rw [relaxScores_cameFrom] at hm
    by_cases hmn : m = n
    · rw [if_pos hmn] at hm
      obtain rfl : cur = c := by cases hm; rfl
      subst hmn
      refine ⟨gc + 1, gc, ?_, ?_, Nat.lt_succ_self gc⟩
      · rw [relaxScores_gScore, if_pos rfl]
      · rw [relaxScores_gScore, if_neg hcn]; exact hgc
    · rw [if_neg hmn] at hm
      obtain ⟨gm, gc₀, hgm, hgc₀, hlt₀⟩ := hI.cf_g m c hm
      by_cases hcn' : c = n
      · subst hcn'
        rw [hgc₀] at hlt
        simp only [ltG, decide_eq_true_eq] at hlt
        exact ⟨gm, gc + 1, by rw [relaxScores_gScore, if_neg hmn]; exact hgm,
          by rw [relaxScores_gScore, if_pos rfl], by omega⟩
      · exact ⟨gm, gc₀, by rw [relaxScores_gScore, if_neg hmn]; exact hgm,
          by rw [relaxScores_gScore, if_neg hcn']; exact hgc₀, hlt₀⟩
  · intro m hm hg
    rw [relaxScores_gScore] at hg
    rw [relaxScores_cameFrom]
    by_cases hmn : m = n
    · rw [if_pos hmn]; simp
    · rw [if_neg hmn] at hg ⊢; exact hI.disc_cf m hm hg
  · intro e he
    rw [relaxScores_queue] at he
    rw [relaxScores_gScore]
    by_cases hen : e.2.2 = n
    · rw [if_pos hen]; simp
    · rw [if_neg hen]; exact hI.queue_g e he
  · rw [relaxScores_queue]; exact hI.counts_lt
  · rw [relaxScores_queue, relaxScores_count]; exact hI.counts_le
  · rw [relaxScores_events]; exact hI.ev_start_g
  · rw [relaxScores_events]; exact hI.ev_start_r
  · rw [relaxScores_events]; exact hI.ev_goal_r

lemma coreInv_relax {cfg : Config} (cur : Pos) (s : SState) (n : Pos)
    (hI : CoreInv cfg s) : CoreInv cfg (relaxOne cfg cur s n) := by
  rcases relaxOne_cases cfg cur s n with heq | ⟨gc, hgc, hlt, hcase⟩
  · rw [heq]; exact hI
  obtain ⟨hI', hns, hcn⟩ := coreInv_relaxScores hI hgc hlt
  rcases hcase with ⟨hmem, heq⟩ | ⟨hmem, heq⟩
  · rw [heq]; exact hI'
  rw [heq]
  set s' := relaxScores cfg cur s n (gc + 1) with hs'
  constructor
  · rw [pushOpen_gScore]; exact hI'.g0
  · rw [pushOpen_cameFrom]; exact hI'.cf_start
  · intro m c hm
    rw [pushOpen_cameFrom] at hm
    obtain ⟨gm, gc₀, hgm, hgc₀, hlt₀⟩ := hI'.cf_g m c hm
    exact ⟨gm, gc₀, by rw [pushOpen_gScore]; exact hgm, by rw [pushOpen_gScore]; exact hgc₀, hlt₀⟩
  · intro m hm hg
    rw [pushOpen_gScore] at hg
    rw [pushOpen_cameFrom]
    exact hI'.disc_cf m hm hg
  · intro e he
    rw [pushOpen_queue, List.mem_append] at he
    rw [pushOpen_gScore]
    rcases he with he | he
    · exact hI'.queue_g e he
    · rw [List.mem_singleton] at he
      subst he
      show s'.gScore n ≠ none
      rw [hs', relaxScores_gScore, if_pos rfl]
      simp
  · rw [pushOpen_queue]
    rw [List.pairwise_append]
    refine ⟨hI'.counts_lt, List.pairwise_singleton _ _, ?_⟩
    intro a ha b hb
    rw [List.mem_singleton] at hb
    subst hb
    have := hI'.counts_le a ha
    simpa using Nat.lt_succ_of_le this
  · intro e he
    rw [pushOpen_queue, List.mem_append] at he
    rw [pushOpen_count]
    rcases he with he | he
    · exact Nat.le_succ_of_le (hI'.counts_le e he)
    · rw [List.mem_singleton] at he
      subst he
      simp
  · rw [pushOpen_events, List.mem_append]
    rintro (hin | hin)
    · exact hI'.ev_start_g hin
    · rw [List.mem_singleton] at hin
      exact hns (by cases hin; rfl)
  · rw [pushOpen_events, List.mem_append]
    rintro (hin | hin)
    · exact hI'.ev_start_r hin
    · rw [List.mem_singleton] at hin
      cases hin
  · rw [pushOpen_events, List.mem_append]
    rintro (hin | hin)
    · exact hI'.ev_goal_r hin
    · rw [List.mem_singleton] at hin
      cases hin

lemma coreInv_steps {cfg : Config} : ∀ s s', CoreInv cfg s → Steps cfg s s' → CoreInv cfg s' := by
  refine Steps_pres ?_ ?_ ?_
  · intro s e rest hI hq
    obtain ⟨hmem, hsub, hlen, hmin⟩ := popMinQ_spec s.queue e rest hq
    constructor
    · exact hI.g0
    · exact hI.cf_start
    · exact hI.cf_g
    · exact hI.disc_cf
    · intro e' he'; exact hI.queue_g e' (hsub.subset he')
    · exact hI.counts_lt.sublist hsub
    · intro e' he'; exact hI.counts_le e' (hsub.subset he')
    · exact hI.ev_start_g
    · exact hI.ev_start_r
    · exact hI.ev_goal_r
  · intro cur s n hI _; exact coreInv_relax cur s n hI
  · intro s p hI hps hpg
    constructor
    · exact hI.g0
    · exact hI.cf_start
    · exact hI.cf_g
    · exact hI.disc_cf
    · intro e' he'; exact hI.queue_g e' (by simpa using he')
    · simpa using hI.counts_lt
    · intro e' he'; simp only [mark_queue] at he'; simpa using hI.counts_le e' he'
    · rw [mark_events, List.mem_append]
      rintro (hin | hin)
      · exact hI.ev_start_g hin
      · rw [List.mem_singleton] at hin; cases hin
    · rw [mark_events, List.mem_append]
      rintro (hin | hin)
      · exact hI.ev_start_r hin
      · rw [List.mem_singleton] at hin
        exact hps (by cases hin; rfl)
    · rw [mark_events, List.mem_append]
      rintro (hin | hin)
      · exact hI.ev_goal_r hin
      · rw [List.mem_singleton] at hin
        exact hpg (by cases hin; rfl)

lemma coreInv_reachable {cfg : Config} {c0 : Pos → Color} {s : SState}
    (hr : Reachable cfg c0 s) : CoreInv cfg s :=
  reachable_invariant (coreInv_init cfg c0) (fun s t hP hst => coreInv_steps s t hP hst) hr

end Astar

namespace Astar

lemma cfIter_stuck {cf : Pos → Option Pos} {p : Pos} (hp : cf p = none) :
    ∀ m, cfIter cf m p = p := by
  intro m
  cases m with
  | zero => rfl
  | succ m => rw [cfIter, hp]

lemma cfIter_add (cf : Pos → Option Pos) :
    ∀ (m k : ℕ) (p : Pos), cfIter cf (m + k) p = cfIter cf k (cfIter cf m p) := by
  intro m
  induction m with
  | zero => intro k p; rw [Nat.zero_add]; rfl
  | succ m ih =>
    intro k p
    have h1 : m + 1 + k = (m + k) + 1 := by omega
    rw [h1]
    cases hp : cf p with
    | none => simp only [cfIter_stuck hp]
    | some q =>
      rw [cfIter, hp, cfIter, hp]
      exact ih k q

/-- From the `came_from` strict-descent invariant: following the chain
from any discovered node reaches `start` within `g_score` many steps. -/
lemma chain_reaches_start {cfg : Config} {s : SState} (hI : CoreInv cfg s) :
    ∀ gn n, s.gScore n = some gn → cfIter s.cameFrom gn n = cfg.start := by
  have key : ∀ N gn (n : Pos), gn ≤ N → s.gScore n = some gn →
      cfIter s.cameFrom gn n = cfg.start := by
    intro N
    induction N with
    | zero =>
      intro gn n hle hgn
      by_cases hns : n = cfg.start
      · subst hns; exact cfIter_stuck hI.cf_start gn
      · have hcf : s.cameFrom n ≠ none := hI.disc_cf n hns (by rw [hgn]; simp)
        cases hc : s.cameFrom n with
        | none => exact absurd hc hcf
        | some c =>
          obtain ⟨gn', gc, hgn', hgc, hlt⟩ := hI.cf_g n c hc
          rw [hgn] at hgn'
          have hgneq : gn = gn' := by cases hgn'; rfl
          omega
    | succ N ih =>
      intro gn n hle hgn
      by_cases hns : n = cfg.start
      · subst hns; exact cfIter_stuck hI.cf_start gn
      · have hcf : s.cameFrom n ≠ none := hI.disc_cf n hns (by rw [hgn]; simp)
        cases hc : s.cameFrom n with
        | none => exact absurd hc hcf
        | some c =>
          obtain ⟨gn', gc, hgn', hgc, hlt⟩ := hI.cf_g n c hc
          rw [hgn] at hgn'
          have hgneq : gn = gn' := by cases hgn'; rfl
          rw [← hgneq] at hlt
          obtain ⟨m, rfl⟩ : ∃ m, gn = m + 1 := ⟨gn - 1, by omega⟩
          rw [cfIter, hc]
          have hbase : cfIter s.cameFrom gc c = cfg.start := ih gc c (by omega) hgc
          have hext : cfIter s.cameFrom (gc + (m - gc)) c = cfg.start := by
            rw [cfIter_add, hbase, cfIter_stuck hI.cf_start]
          rwa [show gc + (m - gc) = m by omega] at hext
  exact fun gn n hgn => key gn gn n le_rfl hgn

/-- Every node on the reconstruction chain of `n` has a strictly smaller
`g_score` than `n`. -/
lemma chainList_g_lt {cfg : Config} {s : SState} (hI : CoreInv cfg s) :
    ∀ (fuel : ℕ) (n : Pos) (gn : ℕ), s.gScore n = some gn →
      ∀ p ∈ chainList fuel s.cameFrom n, ∃ gp, s.gScore p = some gp ∧ gp < gn := by
  intro fuel
  induction fuel with
  | zero => intro n gn _ p hp; simp [chainList] at hp
  | succ fuel ih =>
    intro n gn hgn p hp
    rw [chainList] at hp
    cases hc : s.cameFrom n with
    | none => rw [hc] at hp; simp at hp
    | some c =>
      rw [hc] at hp
      obtain ⟨gn', gc, hgn', hgc, hlt⟩ := hI.cf_g n c hc
      rw [hgn] at hgn'
      obtain rfl : gn' = gn := by cases hgn'; rfl
      rcases List.mem_cons.mp hp with rfl | hp
      · exact ⟨gc, hgc, hlt⟩
      · obtain ⟨gp, hgp, hgplt⟩ := ih c gc hgc p hp
        exact ⟨gp, hgp, by omega⟩

/-- When the fuel exceeds the node's `g_score`, the reconstruction chain
of a discovered non-start node contains `start`. -/
lemma start_mem_chainList {cfg : Config} {s : SState} (hI : CoreInv cfg s) :
    ∀ gn, ∀ (n : Pos) (fuel : ℕ), s.gScore n = some gn → n ≠ cfg.start → gn < fuel →
      cfg.start ∈ chainList fuel s.cameFrom n := by
  have key : ∀ N gn (n : Pos) (fuel : ℕ), gn ≤ N → s.gScore n = some gn → n ≠ cfg.start →
      gn < fuel → cfg.start ∈ chainList fuel s.cameFrom n := by
    intro N
    induction N with
    | zero =>
      intro gn n fuel hle hgn hns hfuel
      have hcf : s.cameFrom n ≠ none := hI.disc_cf n hns (by rw [hgn]; simp)
      cases hc : s.cameFrom n with
      | none => exact absurd hc hcf
      | some c =>
        obtain ⟨gn', gc, hgn', hgc, hlt⟩ := hI.cf_g n c hc
        rw [hgn] at hgn'
        have hgneq : gn = gn' := by cases hgn'; rfl
        omega
    | succ N ih =>
      intro gn n fuel hle hgn hns hfuel
      have hcf : s.cameFrom n ≠ none := hI.disc_cf n hns (by rw [hgn]; simp)
      cases hc : s.cameFrom n with
      | none => exact absurd hc hcf
      | some c =>
        obtain ⟨f, rfl⟩ : ∃ f, fuel = f + 1 := ⟨fuel - 1, by omega⟩
        rw [chainList, hc]
        obtain ⟨gn', gc, hgn', hgc, hlt⟩ := hI.cf_g n c hc
        rw [hgn] at hgn'
        have hgneq : gn = gn' := by cases hgn'; rfl
        rw [← hgneq] at hlt
        by_cases hcs : c = cfg.start
        · rw [hcs]; exact List.mem_cons_self _ _
        · exact List.mem_cons_of_mem _ (ih gc c f (by omega) hgc hcs (by omega))
  exact fun gn n fuel hgn hns hfuel => key gn gn n fuel le_rfl hgn hns hfuel

/-- C10: in every reachable loop state, `start` has no `came_from` entry,
every recorded predecessor has a strictly smaller `g_score` than its
successor, and the chain from any discovered node reaches `start` in at
most `g_score` steps, so path reconstruction terminates. -/
theorem C10_came_from_invariant (cfg : Config) (c0 : Pos → Color) (s : SState)
    (hreach : Reachable cfg c0 s) :
    s.cameFrom cfg.start = none ∧
    (∀ n c, s.cameFrom n = some c →
      ∃ gn gc, s.gScore n = some gn ∧ s.gScore c = some gc ∧ gc < gn) ∧
    (∀ n gn, s.gScore n = some gn → cfIter s.cameFrom gn n = cfg.start) := by
  have hI := coreInv_reachable hreach
  exact ⟨hI.cf_start, hI.cf_g, fun n gn hgn => chain_reaches_start hI gn n hgn⟩

/-- C7: the frontier pops the entry with the lexicographically least
`(f_score, sequence)` key — least stored `f_score`, and among equal
`f_score` the earliest inserted — while stored sequence numbers strictly
increase along the queue in insertion order. -/
theorem C7_frontier_order (cfg : Config) (c0 : Pos → Color) (s : SState)
    (hreach : Reachable cfg c0 s) :
    (s.queue.Pairwise fun a b => a.2.1 < b.2.1) ∧
    (∀ e rest, popMinQ s.queue = some (e, rest) → e ∈ s.queue ∧
      ∀ e' ∈ s.queue, e.1 < e'.1 ∨ (e.1 = e'.1 ∧ e.2.1 ≤ e'.2.1)) := by
  have hI := coreInv_reachable hreach
  refine ⟨hI.counts_lt, ?_⟩
  intro e rest hpop
  obtain ⟨hmem, hsub, hlen, hmin⟩ := popMinQ_spec s.queue e rest hpop
  refine ⟨hmem, ?_⟩
  intro e' he'
  have := hmin e' he'
  simp only [keyLe, Bool.or_eq_true, Bool.and_eq_true, decide_eq_true_eq, beq_iff_eq] at this
  tauto

end Astar

namespace Astar

/-- Amended C2: throughout every run, `start` is never marked Open or
Closed and `end` is never marked Closed (the event trace records every
status mutation); on success `end`'s final status is End.  (`end` may
transiently be marked Open when first discovered, and `start` is
re-marked Path by reconstruction on success.) -/
theorem C2_start_goal_status (cfg : Config) (c0 : Pos → Color) (b : Bool) (s' : SState)
    (halg : algorithm cfg c0 = some (b, s')) :
    (cfg.start, Color.green) ∉ s'.events ∧ (cfg.start, Color.red) ∉ s'.events ∧
    (cfg.goal, Color.red) ∉ s'.events ∧
    (b = true → s'.color cfg.goal = Color.turquoise) := by
  obtain ⟨t, hreach, hdone⟩ := algorithm_final halg
  have hI := coreInv_reachable hreach
  rcases step_done_cases hdone with ⟨rfl, rfl, hq⟩ | ⟨rfl, e, rest, hq, hgoal, rfl⟩
  · exact ⟨hI.ev_start_g, hI.ev_start_r, hI.ev_goal_r, by simp⟩
  · refine ⟨?_, ?_, ?_, ?_⟩
    · rw [mark_events, reconstructPath_events, List.mem_append, List.mem_append]
      rintro ((hin | hin) | hin)
      · exact hI.ev_start_g hin
      · simp [List.mem_map] at hin
      · simp at hin
    · rw [mark_events, reconstructPath_events, List.mem_append, List.mem_append]
      rintro ((hin | hin) | hin)
      · exact hI.ev_start_r hin
      · simp [List.mem_map] at hin
      · simp at hin
    · rw [mark_events, reconstructPath_events, List.mem_append, List.mem_append]
      rintro ((hin | hin) | hin)
      · exact hI.ev_goal_r hin
      · simp [List.mem_map] at hin
      · simp at hin
    · intro _
      rw [mark_color, if_pos rfl]

/-- C6: `algorithm` is a pure function of the grid state — two runs on
identical inputs return identical results, in particular the same trace
of Open/Closed markings and the same reconstructed path. -/
theorem C6_determinism (cfg₁ cfg₂ : Config) (c₁ c₂ : Pos → Color)
    (hcfg : cfg₁ = cfg₂) (hc : c₁ = c₂) :
    algorithm cfg₁ c₁ = algorithm cfg₂ c₂ ∧
    (algorithm cfg₁ c₁).map (fun r => r.2.events) =
      (algorithm cfg₂ c₂).map (fun r => r.2.events) ∧
    (algorithm cfg₁ c₁).map (fun r => chainList (cfg₁.R * cfg₁.R + 1) r.2.cameFrom cfg₁.goal) =
      (algorithm cfg₂ c₂).map (fun r => chainList (cfg₂.R * cfg₂.R + 1) r.2.cameFrom cfg₂.goal) := by
  subst hcfg
  subst hc
  exact ⟨rfl, rfl, rfl⟩

/-- A 2×2 demonstration grid: start at (0,0), end at (1,1), no barriers. -/
def colors2 : Pos → Color := fun p =>
  if p = ((0, 0) : Pos) then Color.orange
  else if p = ((1, 1) : Pos) then Color.turquoise
  else Color.white

/-- The run inputs for the 2×2 demonstration grid, adjacency derived. -/
def cfg2 : Config :=
  { R := 2, start := (0, 0), goal := (1, 1), nbrs := updateNeighbors 2 colors2 }

/-- The result of the 2×2 demonstration run (it succeeds). -/
def run2 : Bool × SState := (algorithm cfg2 colors2).getD (false, initState cfg2 colors2)

/-- The 5×5 scenario grid of the spec: start (0,0), end (4,4), empty. -/
def colors5 : Pos → Color := fun p =>
  if p = ((0, 0) : Pos) then Color.orange
  else if p = ((4, 4) : Pos) then Color.turquoise
  else Color.white

/-- The run inputs for the 5×5 scenario grid, adjacency derived. -/
def cfg5 : Config :=
  { R := 5, start := (0, 0), goal := (4, 4), nbrs := updateNeighbors 5 colors5 }

/-- 3×3 grid with its middle row all barriers: start (0,1), end (2,1). -/
def colors3 : Pos → Color := fun p =>
  if p = ((0, 1) : Pos) then Color.orange
  else if p = ((2, 1) : Pos) then Color.turquoise
  else if p.1 = 1 then Color.black
  else Color.white

/-- The run inputs for the blocked 3×3 grid, adjacency derived. -/
def cfg3 : Config :=
  { R := 3, start := (0, 1), goal := (2, 1), nbrs := updateNeighbors 3 colors3 }

/-- C1 fails on the code: on the 2×2 demonstration grid the successful
search leaves the start cell recolored Path (purple) — `reconstruct_path`
walks `came_from` one step past the last intermediate cell. -/
theorem C1_counterexample :
    (algorithm cfg2 colors2).map (fun r => r.2.color (0, 0)) = some Color.purple ∧
    cfg2.start = (0, 0) ∧ colors2 (0, 0) = Color.orange := by
  exact ⟨by decide, rfl, by decide⟩

/-- C2 fails on the code: on the 2×2 demonstration grid the end cell is
marked Open (green) when it is first discovered, so its status is not
End at every observation point. -/
theorem C2_counterexample :
    (algorithm cfg2 colors2).map
      (fun r => decide (((1, 1), Color.green) ∈ r.2.events)) = some true ∧
    cfg2.goal = (1, 1) := by
  exact ⟨by decide, rfl⟩

end Astar

namespace Astar

/-- The finite set of cells of an `R × R` grid. -/
def cellsF (R : ℕ) : Finset Pos := Finset.range R ×ˢ Finset.range R

lemma mem_cellsF {R : ℕ} {p : Pos} : p ∈ cellsF R ↔ p.1 < R ∧ p.2 < R := by
  simp [cellsF, Finset.mem_product]

lemma card_cellsF (R : ℕ) : (cellsF R).card = R * R := by
  simp [cellsF]

/-- The discovered cells: those with a finite `g_score`. -/
def discF (R : ℕ) (s : SState) : Finset Pos :=
  (cellsF R).filter fun p => (s.gScore p).isSome

/-- Grid invariant: every finite `g_score` belongs to a grid cell and is
strictly below the number of discovered cells. -/
def GInv (cfg : Config) (s : SState) : Prop :=
  ∀ p v, s.gScore p = some v → (p.1 < cfg.R ∧ p.2 < cfg.R) ∧ v < (discF cfg.R s).card

/-- A cell's contribution to the termination measure: its `g_score`
capped at the cell count. -/
def gCap (R : ℕ) (s : SState) (p : Pos) : ℕ :=
  min ((s.gScore p).getD (R * R)) (R * R)

/-- Termination measure: total capped `g_score` plus frontier size;
it strictly decreases at every loop iteration. -/
def phi (cfg : Config) (s : SState) : ℕ :=
  (cellsF cfg.R).sum (gCap cfg.R s) + s.queue.length

lemma updateNeighbors_bounded {R : ℕ} {c : Pos → Color} {p q : Pos}
    (hp1 : p.1 < R) (hp2 : p.2 < R) (hq : q ∈ updateNeighbors R c p) :
    q.1 < R ∧ q.2 < R := by
  rw [mem_updateNeighbors] at hq
  rcases hq with ⟨hb, _, rfl⟩ | ⟨hb, _, rfl⟩ | ⟨hb, _, rfl⟩ | ⟨hb, _, rfl⟩ <;>
    constructor <;> simp <;> omega

lemma discF_relaxScores {R : ℕ} (cfg : Config) (cur : Pos) (s : SState) (n : Pos) (t : ℕ)
    (hn : n.1 < R ∧ n.2 < R) :
    discF R (relaxScores cfg cur s n t) = insert n (discF R s) := by
  ext p
  simp only [discF, Finset.mem_filter, Finset.mem_insert, relaxScores_gScore]
  by_cases hp : p = n
  · subst hp
    simp [mem_cellsF, hn]
  · simp [hp]

lemma discF_card_le {R : ℕ} (s : SState) : (discF R s).card ≤ R * R := by
  calc (discF R s).card ≤ (cellsF R).card := Finset.card_le_card (Finset.filter_subset _ _)
  _ = R * R := card_cellsF R

/-- One relaxation preserves the grid invariant and does not increase the
termination measure. -/
lemma gInv_phi_relax {cfg : Config} {cur : Pos} {s : SState} {n : Pos}
    (Hnb : ∀ p : Pos, p.1 < cfg.R → p.2 < cfg.R → ∀ q ∈ cfg.nbrs p, q.1 < cfg.R ∧ q.2 < cfg.R)
    (hn : n ∈ cfg.nbrs cur) (hI : GInv cfg s) :
    GInv cfg (relaxOne cfg cur s n) ∧ phi cfg (relaxOne cfg cur s n) ≤ phi cfg s := by
  rcases relaxOne_cases cfg cur s n with heq | ⟨gc, hgc, hlt, hcase⟩
  · rw [heq]; exact ⟨hI, le_refl _⟩
  have hcurg : (cur.1 < cfg.R ∧ cur.2 < cfg.R) ∧ gc < (discF cfg.R s).card := hI cur gc hgc
  have hng : n.1 < cfg.R ∧ n.2 < cfg.R := Hnb cur hcurg.1.1 hcurg.1.2 n hn
  have hdisc : discF cfg.R (relaxScores cfg cur s n (gc + 1)) = insert n (discF cfg.R s) :=
    discF_relaxScores cfg cur s n (gc + 1) hng
  have hcard : (discF cfg.R s).card ≤ (insert n (discF cfg.R s)).card :=
    Finset.card_le_card (Finset.subset_insert _ _)
  -- the new value is below the new discovered count
  have hnewlt : gc + 1 < (insert n (discF cfg.R s)).card := by
    by_cases hmem : n ∈ discF cfg.R s
    · rw [Finset.insert_eq_self.mpr hmem]
      have hsome : (s.gScore n).isSome := (Finset.mem_filter.mp hmem).2
      cases hvn : s.gScore n with
      | none => rw [hvn] at hsome; simp at hsome
      | some vn =>
        rw [hvn] at hlt
        simp only [ltG, decide_eq_true_eq] at hlt
        have := (hI n vn hvn).2
        omega
    · rw [Finset.card_insert_of_not_mem hmem]
      omega
  have hGInv' : GInv cfg (relaxScores cfg cur s n (gc + 1)) := by
    intro p v hp
    rw [relaxScores_gScore] at hp
    rw [hdisc]
    by_cases hpn : p = n
    · rw [if_pos hpn] at hp
      obtain rfl : gc + 1 = v := by cases hp; rfl
      exact ⟨hpn ▸ hng, hnewlt⟩
    · rw [if_neg hpn] at hp
      obtain ⟨hgrid, hv⟩ := hI p v hp
      exact ⟨hgrid, lt_of_lt_of_le hv hcard⟩
  have hnew_lt_cap : gc + 1 < cfg.R * cfg.R := by
    have hsub : insert n (discF cfg.R s) ⊆ cellsF cfg.R :=
      Finset.insert_subset (mem_cellsF.mpr hng) (Finset.filter_subset _ _)
    have hcc := Finset.card_le_card hsub
    rw [card_cellsF] at hcc
    omega
  -- pointwise bound on the capped scores
  have hcap_le : ∀ p ∈ cellsF cfg.R,
      gCap cfg.R (relaxScores cfg cur s n (gc + 1)) p ≤ gCap cfg.R s p := by
    intro p _
    unfold gCap
    rw [relaxScores_gScore]
    by_cases hpn : p = n
    · rw [if_pos hpn, Option.getD_some]
      cases hvn : s.gScore n with
      | none =>
        subst hpn
        rw [hvn, Option.getD_none]
        omega
      | some vn =>
        subst hpn
        rw [hvn, Option.getD_some]
        rw [hvn] at hlt
        simp only [ltG, decide_eq_true_eq] at hlt
        omega
    · rw [if_neg hpn]
  have hcap_strict : gCap cfg.R (relaxScores cfg cur s n (gc + 1)) n < gCap cfg.R s n := by
    unfold gCap
    rw [relaxScores_gScore, if_pos rfl, Option.getD_some]
    cases hvn : s.gScore n with
    | none =>
      rw [Option.getD_none]
      omega
    | some vn =>
      rw [Option.getD_some]
      rw [hvn] at hlt
      simp only [ltG, decide_eq_true_eq] at hlt
      omega
  rcases hcase with ⟨hmem, heq⟩ | ⟨hmem, heq⟩
  · rw [heq]
    refine ⟨hGInv', ?_⟩
    unfold phi
    rw [relaxScores_queue]
    exact Nat.add_le_add_right (Finset.sum_le_sum hcap_le) _
  · rw [heq]
    constructor
    · intro p v hp
      exact hGInv' p v hp
    · unfold phi
      have hsum : (cellsF cfg.R).sum (gCap cfg.R (relaxScores cfg cur s n (gc + 1))) <
          (cellsF cfg.R).sum (gCap cfg.R s) :=
        Finset.sum_lt_sum hcap_le ⟨n, mem_cellsF.mpr hng, hcap_strict⟩
      have hq : (pushOpen (relaxScores cfg cur s n (gc + 1)) n
          (gc + 1 + h n cfg.goal)).queue.length = s.queue.length + 1 := by
        rw [pushOpen_queue, List.length_append, relaxScores_queue]
        rfl
      have hsum2 : (cellsF cfg.R).sum (gCap cfg.R (pushOpen (relaxScores cfg cur s n (gc + 1)) n
          (gc + 1 + h n cfg.goal))) =
          (cellsF cfg.R).sum (gCap cfg.R (relaxScores cfg cur s n (gc + 1))) := rfl
      rw [hsum2, hq]
      omega

/-- Every continuing loop step preserves the grid invariant and strictly
decreases the termination measure. -/
lemma gInv_phi_step {cfg : Config}
    (Hnb : ∀ p : Pos, p.1 < cfg.R → p.2 < cfg.R → ∀ q ∈ cfg.nbrs p, q.1 < cfg.R ∧ q.2 < cfg.R)
    {s s' : SState} (hI : GInv cfg s) (hstep : Steps cfg s s') :
    GInv cfg s' ∧ phi cfg s' < phi cfg s := by
  obtain ⟨e, rest, hq, hgoal, hs'⟩ := step_cont_cases hstep
  obtain ⟨hmem, hsub, hlen, hmin⟩ := popMinQ_spec _ _ _ hq
  have hI₁ : GInv cfg { s with queue := rest, hash := s.hash.erase e.2.2 } :=
    fun p v hp => hI p v hp
  have hphi₁ : phi cfg { s with queue := rest, hash := s.hash.erase e.2.2 } + 1 = phi cfg s := by
    unfold phi
    have hg : gCap cfg.R { s with queue := rest, hash := s.hash.erase e.2.2 } = gCap cfg.R s := rfl
    rw [hg]
    dsimp only
    omega
  have hfold : GInv cfg ((cfg.nbrs e.2.2).foldl (relaxOne cfg e.2.2)
        { s with queue := rest, hash := s.hash.erase e.2.2 }) ∧
      phi cfg ((cfg.nbrs e.2.2).foldl (relaxOne cfg e.2.2)
        { s with queue := rest, hash := s.hash.erase e.2.2 }) ≤
        phi cfg { s with queue := rest, hash := s.hash.erase e.2.2 } := by
    refine @foldl_pres Pos SState (relaxOne cfg e.2.2) (fun t => GInv cfg t ∧
      phi cfg t ≤ phi cfg { s with queue := rest, hash := s.hash.erase e.2.2 }) _ _
      ⟨hI₁, le_refl _⟩ ?_
    intro t a ha ⟨ht, hphit⟩
    obtain ⟨h1, h2⟩ := gInv_phi_relax Hnb ha ht
    exact ⟨h1, le_trans h2 hphit⟩
  by_cases hss : e.2.2 = cfg.start
  · rw [hs', if_pos hss]
    exact ⟨hfold.1, by omega⟩
  · rw [hs', if_neg hss]
    have hmk : phi cfg (mark ((cfg.nbrs e.2.2).foldl (relaxOne cfg e.2.2)
        { s with queue := rest, hash := s.hash.erase e.2.2 }) e.2.2 Color.red) =
        phi cfg ((cfg.nbrs e.2.2).foldl (relaxOne cfg e.2.2)
        { s with queue := rest, hash := s.hash.erase e.2.2 }) := rfl
    refine ⟨fun p v hp => hfold.1 p v hp, ?_⟩
    rw [hmk]
    omega

/-- With the invariant, fuel exceeding the measure is enough for the loop
to return. -/
lemma runFuel_total {cfg : Config}
    (Hnb : ∀ p : Pos, p.1 < cfg.R → p.2 < cfg.R → ∀ q ∈ cfg.nbrs p, q.1 < cfg.R ∧ q.2 < cfg.R) :
    ∀ (N : ℕ) (s : SState), GInv cfg s → phi cfg s < N → ∃ r, runFuel cfg N s = some r := by
  intro N
  induction N with
  | zero => intro s _ hphi; omega
  | succ N ih =>
    intro s hI hphi
    rw [runFuel]
    cases hstep : step cfg s with
    | done b s' => exact ⟨(b, s'), rfl⟩
    | cont s' =>
      obtain ⟨hI', hphi'⟩ := gInv_phi_step Hnb hI hstep
      exact ih s' hI' (by omega)

lemma discF_init {cfg : Config} (c0 : Pos → Color)
    (Hs : cfg.start.1 < cfg.R ∧ cfg.start.2 < cfg.R) :
    discF cfg.R (initState cfg c0) = {cfg.start} := by
  ext p
  simp only [discF, Finset.mem_filter, Finset.mem_singleton, initState]
  by_cases hp : p = cfg.start
  · simp [hp, mem_cellsF, Hs]
  · simp [hp]

lemma gInv_init {cfg : Config} (c0 : Pos → Color)
    (Hs : cfg.start.1 < cfg.R ∧ cfg.start.2 < cfg.R) :
    GInv cfg (initState cfg c0) := by
  intro p v hp
  simp only [initState] at hp
  by_cases hps : p = cfg.start
  · rw [if_pos hps] at hp
    obtain rfl : (0 : ℕ) = v := by cases hp; rfl
    rw [discF_init c0 Hs]
    exact ⟨hps ▸ Hs, by simp⟩
  · rw [if_neg hps] at hp
    cases hp

lemma phi_init {cfg : Config} (c0 : Pos → Color) :
    phi cfg (initState cfg c0) ≤ cfg.R * cfg.R * (cfg.R * cfg.R) + 1 := by
  unfold phi
  have hsum : (cellsF cfg.R).sum (gCap cfg.R (initState cfg c0)) ≤
      (cellsF cfg.R).card * (cfg.R * cfg.R) := by
    rw [← smul_eq_mul]
    refine Finset.sum_le_card_nsmul _ _ _ ?_
    intro p _
    unfold gCap
    exact min_le_right _ _
  rw [card_cellsF] at hsum
  have hlen : (initState cfg c0).queue.length = 1 := rfl
  omega

/-- On a finite grid with in-grid `start` and derived adjacency the
search loop always terminates with a result, within the fuel bound. -/
lemma algorithm_total (cfg : Config) (c0 : Pos → Color)
    (Hnb : cfg.nbrs = updateNeighbors cfg.R c0)
    (Hs : cfg.start.1 < cfg.R ∧ cfg.start.2 < cfg.R) :
    ∃ b s', algorithm cfg c0 = some (b, s') := by
  have Hnb' : ∀ p : Pos, p.1 < cfg.R → p.2 < cfg.R → ∀ q ∈ cfg.nbrs p,
      q.1 < cfg.R ∧ q.2 < cfg.R := by
    intro p hp1 hp2 q hq
    rw [Hnb] at hq
    exact updateNeighbors_bounded hp1 hp2 hq
  obtain ⟨⟨b, s'⟩, hr⟩ := runFuel_total Hnb' (algorithmFuel cfg) (initState cfg c0)
    (gInv_init c0 Hs) (by
      have := @phi_init cfg c0
      unfold algorithmFuel
      omega)
  exact ⟨b, s', hr⟩

end Astar

namespace Astar

/-- C5: on every finite grid with adjacency derived and `start` in the
grid, the search loop terminates after finitely many iterations with a
result — it never runs forever. -/
theorem C5_termination (cfg : Config) (c0 : Pos → Color)
    (Hnb : cfg.nbrs = updateNeighbors cfg.R c0)
    (Hs : cfg.start.1 < cfg.R ∧ cfg.start.2 < cfg.R) :
    ∃ b s', algorithm cfg c0 = some (b, s') :=
  algorithm_total cfg c0 Hnb Hs

lemma gInv_reachable {cfg : Config} {c0 : Pos → Color}
    (Hnb : ∀ p : Pos, p.1 < cfg.R → p.2 < cfg.R → ∀ q ∈ cfg.nbrs p, q.1 < cfg.R ∧ q.2 < cfg.R)
    (Hs : cfg.start.1 < cfg.R ∧ cfg.start.2 < cfg.R)
    {s : SState} (hr : Reachable cfg c0 s) : GInv cfg s :=
  reachable_invariant (gInv_init c0 Hs)
    (fun _ _ hP hstep => (gInv_phi_step Hnb hP hstep).1) hr

/-- No loop iteration ever paints a cell purple: only `reconstruct_path`
does, after the loop. -/
lemma noPurple_reachable {cfg : Config} {c0 : Pos → Color}
    (H0 : ∀ p, c0 p ≠ Color.purple) {s : SState} (hr : Reachable cfg c0 s) :
    ∀ p, s.color p ≠ Color.purple := by
  refine @reachable_invariant cfg c0 (fun t => ∀ p, t.color p ≠ Color.purple) H0 ?_ s hr
  refine Steps_pres ?_ ?_ ?_
  · intro s e rest hP _
    exact hP
  · intro cur s n hP _
    rcases relaxOne_cases cfg cur s n with heq | ⟨gc, hgc, hlt, hcase⟩
    · rw [heq]; exact hP
    rcases hcase with ⟨hmem, heq⟩ | ⟨hmem, heq⟩
    · rw [heq]
      intro p
      rw [relaxScores_color]
      exact hP p
    · rw [heq]
      intro p
      rw [pushOpen_color]
      by_cases hpn : p = n
      · rw [if_pos hpn]; simp
      · rw [if_neg hpn]
        rw [relaxScores_color]
        exact hP p
  · intro s p hP _ _
    intro q
    rw [mark_color]
    by_cases hqp : q = p
    · rw [if_pos hqp]; simp
    · rw [if_neg hqp]; exact hP q

/-- One axis-aligned step to an in-bounds, non-barrier cell, with respect
to the colors adjacency was derived from. -/
def Adj (R : ℕ) (c0 : Pos → Color) (p q : Pos) : Prop := q ∈ updateNeighbors R c0 p

/-- Every discovered node is connected to `start` by non-barrier steps. -/
lemma reach_discovered {cfg : Config} {c0 : Pos → Color}
    (Hnb : cfg.nbrs = updateNeighbors cfg.R c0) {s : SState} (hr : Reachable cfg c0 s) :
    ∀ n, s.gScore n ≠ none → Relation.ReflTransGen (Adj cfg.R c0) cfg.start n := by
  refine @reachable_invariant cfg c0
    (fun t => ∀ n, t.gScore n ≠ none → Relation.ReflTransGen (Adj cfg.R c0) cfg.start n)
    ?_ ?_ s hr
  · intro n hn
    simp only [initState] at hn
    by_cases hns : n = cfg.start
    · subst hns; exact Relation.ReflTransGen.refl
    · rw [if_neg hns] at hn; simp at hn
  · refine Steps_pres ?_ ?_ ?_
    · intro s e rest hP _
      exact hP
    · intro cur s n hP hn
      rcases relaxOne_cases cfg cur s n with heq | ⟨gc, hgc, hlt, hcase⟩
      · rw [heq]; exact hP
      have hreachn : Relation.ReflTransGen (Adj cfg.R c0) cfg.start n := by
        refine Relation.ReflTransGen.tail (hP cur (by rw [hgc]; simp)) ?_
        show n ∈ updateNeighbors cfg.R c0 cur
        rw [← Hnb]
        exact hn
      have hkey : ∀ m, (relaxScores cfg cur s n (gc + 1)).gScore m ≠ none →
          Relation.ReflTransGen (Adj cfg.R c0) cfg.start m := by
        intro m hm
        rw [relaxScores_gScore] at hm
        by_cases hmn : m = n
        · subst hmn; exact hreachn
        · rw [if_neg hmn] at hm; exact hP m hm
      rcases hcase with ⟨hmem, heq⟩ | ⟨hmem, heq⟩
      · rw [heq]; exact hkey
      · rw [heq]
        intro m hm
        rw [pushOpen_gScore] at hm
        exact hkey m hm
    · intro s p hP _ _
      exact hP

/-- C4: when no sequence of axis-aligned non-barrier steps connects
`start` to `end`, the search exhausts the frontier, returns failure, and
leaves no cell colored Path. -/
theorem C4_no_path_failure (cfg : Config) (c0 : Pos → Color)
    (Hnb : cfg.nbrs = updateNeighbors cfg.R c0)
    (Hs : cfg.start.1 < cfg.R ∧ cfg.start.2 < cfg.R)
    (Hnp : ∀ p, c0 p ≠ Color.purple)
    (Hconn : ¬ Relation.ReflTransGen (Adj cfg.R c0) cfg.start cfg.goal) :
    ∃ s', algorithm cfg c0 = some (false, s') ∧ ∀ p, s'.color p ≠ Color.purple := by
  obtain ⟨b, s', halg⟩ := algorithm_total cfg c0 Hnb Hs
  obtain ⟨t, hreach, hdone⟩ := algorithm_final halg
  have hI := coreInv_reachable hreach
  rcases step_done_cases hdone with ⟨rfl, heq, hq⟩ | ⟨rfl, e, rest, hq, hgoal, rfl⟩
  · refine ⟨s', halg, ?_⟩
    rw [heq]
    exact noPurple_reachable Hnp hreach
  · exfalso
    obtain ⟨hmem, -, -, -⟩ := popMinQ_spec _ _ _ hq
    have hg : t.gScore cfg.goal ≠ none := by
      rw [← hgoal]
      exact hI.queue_g e hmem
    exact Hconn (reach_discovered Hnb hreach cfg.goal hg)

/-- Amended C1: on success, the purple cells are exactly the cells of the
`came_from` chain followed from `end`; the chain excludes `end` itself
but ends at (and includes) `start`, which is therefore recolored Path. -/
theorem C1_reconstruction_marks_chain (cfg : Config) (c0 : Pos → Color) (s' : SState)
    (Hnb : cfg.nbrs = updateNeighbors cfg.R c0)
    (Hs : cfg.start.1 < cfg.R ∧ cfg.start.2 < cfg.R)
    (Hnp : ∀ p, c0 p ≠ Color.purple)
    (Hse : cfg.start ≠ cfg.goal)
    (halg : algorithm cfg c0 = some (true, s')) :
    (∀ p, s'.color p = Color.purple ↔
      p ∈ chainList (cfg.R * cfg.R + 1) s'.cameFrom cfg.goal) ∧
    cfg.start ∈ chainList (cfg.R * cfg.R + 1) s'.cameFrom cfg.goal ∧
    cfg.goal ∉ chainList (cfg.R * cfg.R + 1) s'.cameFrom cfg.goal := by
  obtain ⟨t, hreach, hdone⟩ := algorithm_final halg
  have hI := coreInv_reachable hreach
  have hNP := noPurple_reachable Hnp hreach
  have hGI : GInv cfg t := by
    refine gInv_reachable ?_ Hs hreach
    intro p hp1 hp2 q hq
    rw [Hnb] at hq
    exact updateNeighbors_bounded hp1 hp2 hq
  rcases step_done_cases hdone with ⟨hb, -, -⟩ | ⟨-, e, rest, hq, hgoal, hs'⟩
  · cases hb
  obtain ⟨hmem, -, -, -⟩ := popMinQ_spec _ _ _ hq
  have hgg : t.gScore cfg.goal ≠ none := by
    rw [← hgoal]; exact hI.queue_g e hmem
  cases hggv : t.gScore cfg.goal with
  | none => exact absurd hggv hgg
  | some gg =>
    have hgg_lt : gg < cfg.R * cfg.R := by
      have := (hGI cfg.goal gg hggv).2
      have hle := @discF_card_le cfg.R t
      omega
    -- the final state's cameFrom is the loop state's
    have hcf : s'.cameFrom = t.cameFrom := by
      rw [hs', mark_cameFrom, reconstructPath_cameFrom]
    have hchain_eq : chainList (cfg.R * cfg.R + 1) s'.cameFrom cfg.goal =
        chainList (cfg.R * cfg.R + 1) t.cameFrom cfg.goal := by rw [hcf]
    have hstart_mem : cfg.start ∈ chainList (cfg.R * cfg.R + 1) t.cameFrom cfg.goal :=
      start_mem_chainList hI gg cfg.goal (cfg.R * cfg.R + 1) hggv (Ne.symm Hse) (by omega)
    have hgoal_notmem : cfg.goal ∉ chainList (cfg.R * cfg.R + 1) t.cameFrom cfg.goal := by
      intro hin
      obtain ⟨gp, hgp, hlt⟩ := chainList_g_lt hI (cfg.R * cfg.R + 1) cfg.goal gg hggv _ hin
      rw [hggv] at hgp
      obtain rfl : gg = gp := by cases hgp; rfl
      omega
    refine ⟨?_, hchain_eq ▸ hstart_mem, hchain_eq ▸ hgoal_notmem⟩
    intro p
    rw [hchain_eq, hs']
    rw [mark_color]
    by_cases hpg : p = cfg.goal
    · rw [if_pos hpg]
      subst hpg
      constructor
      · intro hcon; cases hcon
      · intro hin; exact absurd hin hgoal_notmem
    · rw [if_neg hpg]
      rw [reconstructPath_color]
      by_cases hpc : p ∈ chainList (cfg.R * cfg.R + 1) t.cameFrom cfg.goal
      · rw [if_pos hpc]
        simp [hpc]
      · rw [if_neg hpc]
        constructor
        · intro hcol; exact absurd hcol (hNP p)
        · intro hin; exact absurd hin hpc

end Astar

namespace Astar

lemma cfg3_row0 : ∀ p q : Pos, p.1 = 0 → p.2 < 3 → q ∈ updateNeighbors 3 colors3 p →
    q.1 = 0 ∧ q.2 < 3 := by
  intro p q hp1 hp2 hq
  obtain ⟨pr, pc⟩ := p
  simp only at hp1 hp2
  subst hp1
  have hc : pc = 0 ∨ pc = 1 ∨ pc = 2 := by omega
  rcases hc with rfl | rfl | rfl
  · have hl : updateNeighbors 3 colors3 (0, 0) = [(0, 1)] := by decide
    rw [hl] at hq
    rw [List.mem_singleton] at hq
    subst hq
    exact ⟨rfl, by omega⟩
  · have hl : updateNeighbors 3 colors3 (0, 1) = [(0, 2), (0, 0)] := by decide
    rw [hl] at hq
    rcases List.mem_cons.mp hq with rfl | hq
    · exact ⟨rfl, by omega⟩
    · rw [List.mem_singleton] at hq
      subst hq
      exact ⟨rfl, by omega⟩
  · have hl : updateNeighbors 3 colors3 (0, 2) = [(0, 1)] := by decide
    rw [hl] at hq
    rw [List.mem_singleton] at hq
    subst hq
    exact ⟨rfl, by omega⟩

/-- In the blocked 3×3 grid, the barrier row separates start from end. -/
lemma cfg3_unreachable : ¬ Relation.ReflTransGen (Adj 3 colors3) (0, 1) (2, 1) := by
  intro hr
  have key : ∀ q : Pos, Relation.ReflTransGen (Adj 3 colors3) (0, 1) q → q.1 = 0 ∧ q.2 < 3 := by
    intro q hq
    induction hq with
    | refl => exact ⟨rfl, by omega⟩
    | tail hab hbc ih => exact cfg3_row0 _ _ ih.1 ih.2 hbc
  have := (key _ hr).1
  simp at this

theorem C1_witness :
    cfg2.nbrs = updateNeighbors cfg2.R colors2 ∧
    (cfg2.start.1 < cfg2.R ∧ cfg2.start.2 < cfg2.R) ∧
    (∀ p, colors2 p ≠ Color.purple) ∧
    cfg2.start ≠ cfg2.goal ∧
    algorithm cfg2 colors2 = some (true, run2.2) ∧
    ((∀ p, run2.2.color p = Color.purple ↔
        p ∈ chainList (cfg2.R * cfg2.R + 1) run2.2.cameFrom cfg2.goal) ∧
      cfg2.start ∈ chainList (cfg2.R * cfg2.R + 1) run2.2.cameFrom cfg2.goal ∧
      cfg2.goal ∉ chainList (cfg2.R * cfg2.R + 1) run2.2.cameFrom cfg2.goal) :=
  ⟨rfl, by decide,
    by intro p; simp only [colors2]; split_ifs <;> decide,
    by decide, rfl,
    C1_reconstruction_marks_chain cfg2 colors2 run2.2 rfl (by decide)
      (by intro p; simp only [colors2]; split_ifs <;> decide) (by decide) rfl⟩

theorem C2_witness :
    algorithm cfg2 colors2 = some (run2.1, run2.2) ∧
    ((cfg2.start, Color.green) ∉ run2.2.events ∧
      (cfg2.start, Color.red) ∉ run2.2.events ∧
      (cfg2.goal, Color.red) ∉ run2.2.events ∧
      (run2.1 = true → run2.2.color cfg2.goal = Color.turquoise)) :=
  ⟨rfl, C2_start_goal_status cfg2 colors2 run2.1 run2.2 rfl⟩

theorem C4_witness :
    cfg3.nbrs = updateNeighbors cfg3.R colors3 ∧
    (cfg3.start.1 < cfg3.R ∧ cfg3.start.2 < cfg3.R) ∧
    (∀ p, colors3 p ≠ Color.purple) ∧
    (¬ Relation.ReflTransGen (Adj cfg3.R colors3) cfg3.start cfg3.goal) ∧
    (∃ s', algorithm cfg3 colors3 = some (false, s') ∧ ∀ p, s'.color p ≠ Color.purple) :=
  ⟨rfl, by decide,
    by intro p; simp only [colors3]; split_ifs <;> decide,
    cfg3_unreachable,
    C4_no_path_failure cfg3 colors3 rfl (by decide)
      (by intro p; simp only [colors3]; split_ifs <;> decide) cfg3_unreachable⟩

theorem C5_witness :
    cfg2.nbrs = updateNeighbors cfg2.R colors2 ∧
    (cfg2.start.1 < cfg2.R ∧ cfg2.start.2 < cfg2.R) ∧
    (∃ b s', algorithm cfg2 colors2 = some (b, s')) :=
  ⟨rfl, by decide, C5_termination cfg2 colors2 rfl (by decide)⟩

theorem C6_witness :
    cfg2 = cfg2 ∧ colors2 = colors2 ∧
    (algorithm cfg2 colors2 = algorithm cfg2 colors2 ∧
      (algorithm cfg2 colors2).map (fun r => r.2.events) =
        (algorithm cfg2 colors2).map (fun r => r.2.events) ∧
      (algorithm cfg2 colors2).map
          (fun r => chainList (cfg2.R * cfg2.R + 1) r.2.cameFrom cfg2.goal) =
        (algorithm cfg2 colors2).map
          (fun r => chainList (cfg2.R * cfg2.R + 1) r.2.cameFrom cfg2.goal)) :=
  ⟨rfl, rfl, C6_determinism cfg2 cfg2 colors2 colors2 rfl rfl⟩

theorem C7_witness :
    Reachable cfg2 colors2 (initState cfg2 colors2) ∧
    (((initState cfg2 colors2).queue.Pairwise fun a b => a.2.1 < b.2.1) ∧
      (∀ e rest, popMinQ (initState cfg2 colors2).queue = some (e, rest) →
        e ∈ (initState cfg2 colors2).queue ∧
        ∀ e' ∈ (initState cfg2 colors2).queue,
          e.1 < e'.1 ∨ (e.1 = e'.1 ∧ e.2.1 ≤ e'.2.1))) :=
  ⟨reachable_init cfg2 colors2,
    C7_frontier_order cfg2 colors2 (initState cfg2 colors2) (reachable_init cfg2 colors2)⟩

theorem C8_witness :
    (((0, 0) : Pos).1 < 2 ∧ ((0, 0) : Pos).2 < 2) ∧
    ((((1, 0) : Pos) ∈ updateNeighbors 2 colors2 ((0, 0) : Pos) ↔
      ((((1, 0) : Pos).1 = ((0, 0) : Pos).1 + 1 ∧ ((1, 0) : Pos).2 = ((0, 0) : Pos).2) ∨
       (((1, 0) : Pos).1 + 1 = ((0, 0) : Pos).1 ∧ ((1, 0) : Pos).2 = ((0, 0) : Pos).2) ∨
       (((1, 0) : Pos).1 = ((0, 0) : Pos).1 ∧ ((1, 0) : Pos).2 = ((0, 0) : Pos).2 + 1) ∨
       (((1, 0) : Pos).1 = ((0, 0) : Pos).1 ∧ ((1, 0) : Pos).2 + 1 = ((0, 0) : Pos).2)) ∧
      ((1, 0) : Pos).1 < 2 ∧ ((1, 0) : Pos).2 < 2 ∧ colors2 (1, 0) ≠ Color.black) ∧
    (updateNeighbors 2 colors2 (0, 0)).Nodup) :=
  ⟨⟨by decide, by decide⟩,
    C8_neighbors_exact 2 colors2 (0, 0) (1, 0) (by decide) (by decide)⟩

theorem C10_witness :
    Reachable cfg2 colors2 (initState cfg2 colors2) ∧
    ((initState cfg2 colors2).cameFrom cfg2.start = none ∧
      (∀ n c, (initState cfg2 colors2).cameFrom n = some c →
        ∃ gn gc, (initState cfg2 colors2).gScore n = some gn ∧
          (initState cfg2 colors2).gScore c = some gc ∧ gc < gn) ∧
      (∀ n gn, (initState cfg2 colors2).gScore n = some gn →
        cfIter (initState cfg2 colors2).cameFrom gn n = cfg2.start)) :=
  ⟨reachable_init cfg2 colors2,
    C10_came_from_invariant cfg2 colors2 (initState cfg2 colors2) (reachable_init cfg2 colors2)⟩

end Astar

namespace Astar

/-! ### C3: on barrier-free grids the search finds a Manhattan-length path

Geometry of the Manhattan heuristic. -/

lemma h_self (p : Pos) : h p p = 0 := by unfold h; omega

lemma h_comm (p q : Pos) : h p q = h q p := by unfold h; omega

lemma h_triangle (a b c : Pos) : h a c ≤ h a b + h b c := by unfold h; omega

lemma h_eq_zero {p q : Pos} (hpq : h p q = 0) : p = q := by
  unfold h at hpq
  have h1 : p.1 = q.1 := by omega
  have h2 : p.2 = q.2 := by omega
  exact Prod.ext h1 h2

/-- The four axis-adjacency shapes. -/
def AdjS (p q : Pos) : Prop :=
  (q.1 = p.1 + 1 ∧ q.2 = p.2) ∨ (q.1 + 1 = p.1 ∧ q.2 = p.2) ∨
  (q.1 = p.1 ∧ q.2 = p.2 + 1) ∨ (q.1 = p.1 ∧ q.2 + 1 = p.2)

lemma AdjS.symm {p q : Pos} (hpq : AdjS p q) : AdjS q p := by
  unfold AdjS at *
  tauto

lemma h_adjS {p q : Pos} (hadj : AdjS p q) : h p q = 1 := by
  unfold AdjS at hadj
  unfold h
  omega

/-- Adjacent cells differ by exactly one in distance from any fixed cell. -/
lemma h_adjS_step {a p q : Pos} (hadj : AdjS p q) :
    h a q = h a p + 1 ∨ h a q + 1 = h a p := by
  unfold AdjS at hadj
  unfold h
  omega

lemma mem_nbrs_adjS {R : ℕ} {c : Pos → Color} {p q : Pos}
    (hq : q ∈ updateNeighbors R c p) : AdjS p q := by
  rw [mem_updateNeighbors] at hq
  unfold AdjS
  rcases hq with ⟨hb1, -, rfl⟩ | ⟨hb1, -, rfl⟩ | ⟨hb1, -, rfl⟩ | ⟨hb1, -, rfl⟩
  · exact Or.inl ⟨rfl, rfl⟩
  · refine Or.inr (Or.inl ⟨?_, rfl⟩)
    show p.1 - 1 + 1 = p.1
    omega
  · exact Or.inr (Or.inr (Or.inl ⟨rfl, rfl⟩))
  · refine Or.inr (Or.inr (Or.inr ⟨rfl, ?_⟩))
    show p.2 - 1 + 1 = p.2
    omega

/-- On a barrier-free grid, adjacency lists contain every in-bounds
axis-aligned neighbor. -/
lemma mem_nbrs_of_adjS {R : ℕ} {c : Pos → Color} (Hb : ∀ p, c p ≠ Color.black)
    {p q : Pos} (hadj : AdjS p q) (hq1 : q.1 < R) (hq2 : q.2 < R)
    (hp1 : p.1 < R) (hp2 : p.2 < R) :
    q ∈ updateNeighbors R c p := by
  rw [mem_updateNeighbors]
  unfold AdjS at hadj
  rcases hadj with ⟨ha, hb⟩ | ⟨ha, hb⟩ | ⟨ha, hb⟩ | ⟨ha, hb⟩
  · exact Or.inl ⟨by omega, Hb _, Prod.ext (by show q.1 = p.1 + 1; omega)
      (by show q.2 = p.2; omega)⟩
  · exact Or.inr (Or.inl ⟨by omega, Hb _, Prod.ext (by show q.1 = p.1 - 1; omega)
      (by show q.2 = p.2; omega)⟩)
  · exact Or.inr (Or.inr (Or.inl ⟨by omega, Hb _, Prod.ext (by show q.1 = p.1; omega)
      (by show q.2 = p.2 + 1; omega)⟩))
  · exact Or.inr (Or.inr (Or.inr ⟨by omega, Hb _, Prod.ext (by show q.1 = p.1; omega)
      (by show q.2 = p.2 - 1; omega)⟩))

/-- One axis step from `q` toward `g` (defined when `q ≠ g`). -/
def stepToward (g q : Pos) : Pos :=
  if q.1 < g.1 then (q.1 + 1, q.2)
  else if g.1 < q.1 then (q.1 - 1, q.2)
  else if q.2 < g.2 then (q.1, q.2 + 1)
  else (q.1, q.2 - 1)

lemma stepToward_spec {g q : Pos} (hne : q ≠ g) :
    AdjS q (stepToward g q) ∧ h (stepToward g q) g + 1 = h q g ∧
    (stepToward g q).1 ≤ max q.1 g.1 ∧ (stepToward g q).2 ≤ max q.2 g.2 := by
  have hcomp : q.1 ≠ g.1 ∨ q.2 ≠ g.2 := by
    by_contra hcon
    push_neg at hcon
    exact hne (Prod.ext hcon.1 hcon.2)
  unfold stepToward AdjS h
  split_ifs with h1 h2 h3
  · refine ⟨Or.inl ⟨rfl, rfl⟩, ?_, ?_, ?_⟩ <;> simp <;> omega
  · refine ⟨Or.inr (Or.inl ⟨?_, rfl⟩), ?_, ?_, ?_⟩ <;> simp <;> omega
  · refine ⟨Or.inr (Or.inr (Or.inl ⟨rfl, rfl⟩)), ?_, ?_, ?_⟩ <;> simp <;> omega
  · have h4 : g.2 < q.2 := by omega
    refine ⟨Or.inr (Or.inr (Or.inr ⟨rfl, ?_⟩)), ?_, ?_, ?_⟩ <;> simp <;> omega

end Astar

namespace Astar

/-- Cells on some shortest (monotone) corridor between start and goal. -/
def Rect (cfg : Config) (p : Pos) : Prop :=
  h cfg.start p + h p cfg.goal = h cfg.start cfg.goal

lemma rect_start (cfg : Config) : Rect cfg cfg.start := by
  unfold Rect
  rw [h_self]
  omega

lemma rect_goal (cfg : Config) : Rect cfg cfg.goal := by
  unfold Rect
  rw [h_self]
  omega

lemma rect_in_grid {cfg : Config} {p : Pos}
    (Hs : cfg.start.1 < cfg.R ∧ cfg.start.2 < cfg.R)
    (Hg : cfg.goal.1 < cfg.R ∧ cfg.goal.2 < cfg.R)
    (hp : Rect cfg p) : p.1 < cfg.R ∧ p.2 < cfg.R := by
  unfold Rect h at hp
  constructor <;> omega

lemma rect_dist_zero {cfg : Config} {p : Pos} (hp : Rect cfg p)
    (hz : h cfg.start p = 0) : p = cfg.start :=
  (h_eq_zero hz).symm

/-- A step from a corridor cell toward the goal: adjacent, on the
corridor, one farther from start, one closer to goal, inside the grid. -/
lemma forward_step {cfg : Config} {c0 : Pos → Color}
    (HR : cfg.nbrs = updateNeighbors cfg.R c0) (Hb : ∀ p, c0 p ≠ Color.black)
    (Hs : cfg.start.1 < cfg.R ∧ cfg.start.2 < cfg.R)
    (Hg : cfg.goal.1 < cfg.R ∧ cfg.goal.2 < cfg.R)
    {q : Pos} (hq : Rect cfg q) (hne : q ≠ cfg.goal) :
    ∃ q', q' ∈ cfg.nbrs q ∧ Rect cfg q' ∧
      h cfg.start q' = h cfg.start q + 1 ∧ h q' cfg.goal + 1 = h q cfg.goal ∧
      q'.1 < cfg.R ∧ q'.2 < cfg.R := by
  obtain ⟨hqg1, hqg2⟩ := rect_in_grid Hs Hg hq
  obtain ⟨hadj, hdec, hb1, hb2⟩ := @stepToward_spec cfg.goal q hne
  set q' := stepToward cfg.goal q with hq'
  have hg1 : q'.1 < cfg.R := by omega
  have hg2 : q'.2 < cfg.R := by omega
  have hup : h cfg.start q' = h cfg.start q + 1 := by
    have htri1 : h cfg.start q' ≤ h cfg.start q + h q q' := h_triangle _ _ _
    have htri2 : h cfg.start cfg.goal ≤ h cfg.start q' + h q' cfg.goal := h_triangle _ _ _
    have hone : h q q' = 1 := h_adjS hadj
    unfold Rect at hq
    omega
  have hrect' : Rect cfg q' := by
    unfold Rect at *
    omega
  exact ⟨q', HR ▸ mem_nbrs_of_adjS Hb hadj hg1 hg2 hqg1 hqg2, hrect', hup, hdec, hg1, hg2⟩

/-- A step from a non-start corridor cell toward the start: the cell is a
neighbor of a corridor cell one closer to start. -/
lemma backward_step {cfg : Config} {c0 : Pos → Color}
    (HR : cfg.nbrs = updateNeighbors cfg.R c0) (Hb : ∀ p, c0 p ≠ Color.black)
    (Hs : cfg.start.1 < cfg.R ∧ cfg.start.2 < cfg.R)
    (Hg : cfg.goal.1 < cfg.R ∧ cfg.goal.2 < cfg.R)
    {m : Pos} (hm : Rect cfg m) (hne : m ≠ cfg.start) :
    ∃ y, m ∈ cfg.nbrs y ∧ Rect cfg y ∧ h cfg.start y + 1 = h cfg.start m := by
  obtain ⟨hmg1, hmg2⟩ := rect_in_grid Hs Hg hm
  obtain ⟨hadj, hdec, hb1, hb2⟩ := @stepToward_spec cfg.start m hne
  set y := stepToward cfg.start m with hy
  have hg1 : y.1 < cfg.R := by omega
  have hg2 : y.2 < cfg.R := by omega
  have hdown : h cfg.start y + 1 = h cfg.start m := by
    rw [h_comm cfg.start y, h_comm cfg.start m] at *
    exact hdec
  have hrect' : Rect cfg y := by
    have htri1 : h y cfg.goal ≤ h y m + h m cfg.goal := h_triangle _ _ _
    have htri2 : h cfg.start cfg.goal ≤ h cfg.start y + h y cfg.goal := h_triangle _ _ _
    have hone : h y m = 1 := by
      rw [h_comm]
      exact h_adjS hadj
    unfold Rect at *
    omega
  exact ⟨y, HR ▸ mem_nbrs_of_adjS Hb hadj.symm hmg1 hmg2 hg1 hg2, hrect', hdown⟩

end Astar

namespace Astar

/-- The A*-specific invariant on barrier-free grids.  Together with
`CoreInv` it implies that every popped node is an optimally-scored
corridor node, that the frontier always holds a corridor entry, and hence
that `end` is popped with `g_score[end]` equal to the Manhattan
distance. -/
structure EInv (cfg : Config) (s : SState) : Prop where
  lowg : ∀ p v, s.gScore p = some v → h cfg.start p ≤ v
  keys : ∀ e ∈ s.queue, ∃ gq, s.gScore e.2.2 = some gq ∧
    gq + h e.2.2 cfg.goal ≤ max e.1 (h cfg.start cfg.goal)
  hashq : ∀ q : Pos, q ∈ s.hash ↔ ∃ e ∈ s.queue, e.2.2 = q
  hnd : s.hash.Nodup
  qnd : (s.queue.map fun e => e.2.2).Nodup
  goalq : s.gScore cfg.goal ≠ none → ∃ e ∈ s.queue, e.2.2 = cfg.goal
  popopt : ∀ q : Pos, s.gScore q ≠ none → q ∉ s.hash →
    Rect cfg q ∧ s.gScore q = some (h cfg.start q)
  krect : ∀ e ∈ s.queue, Rect cfg e.2.2 →
    e.1 ≤ h cfg.start cfg.goal ∧ s.gScore e.2.2 = some (h cfg.start e.2.2)
  goodex : ∃ e ∈ s.queue, Rect cfg e.2.2
  dorder : ∀ e ∈ s.queue, ∀ e' ∈ s.queue, Rect cfg e.2.2 → Rect cfg e'.2.2 →
    e.2.1 ≤ e'.2.1 → h cfg.start e.2.2 ≤ h cfg.start e'.2.2
  dspan : ∀ e ∈ s.queue, ∀ e' ∈ s.queue, Rect cfg e.2.2 → Rect cfg e'.2.2 →
    h cfg.start e.2.2 ≤ h cfg.start e'.2.2 + 1
  keylb : ∀ e ∈ s.queue, h cfg.start cfg.goal ≤ e.1 ∨
    (e.2.2 = cfg.start ∧ e.2.1 = 0 ∧ e.1 = 0)
  covered : ∀ m : Pos, Rect cfg m →
    (∃ e ∈ s.queue, Rect cfg e.2.2 ∧ h cfg.start m < h cfg.start e.2.2) →
    s.gScore m ≠ none
  nbrC : ∀ q : Pos, s.gScore q ≠ none → q ∉ s.hash →
    ∀ n ∈ cfg.nbrs q, ∃ v, s.gScore n = some v ∧ v ≤ h cfg.start q + 1
  cfadj : ∀ n c, s.cameFrom n = some c → h c n = 1

lemma einv_init (cfg : Config) (c0 : Pos → Color) (Hne : cfg.start ≠ cfg.goal) :
    EInv cfg (initState cfg c0) := by
  have hk : 1 ≤ h cfg.start cfg.goal := by
    rcases Nat.eq_zero_or_pos (h cfg.start cfg.goal) with hz | hp
    · exact absurd (h_eq_zero hz) Hne
    · exact hp
  constructor
  · intro p v hp
    simp only [initState] at hp
    by_cases hps : p = cfg.start
    · subst hps
      rw [if_pos rfl] at hp
      obtain rfl : (0 : ℕ) = v := by cases hp; rfl
      rw [h_self]
    · rw [if_neg hps] at hp; cases hp
  · intro e he
    simp only [initState, List.mem_singleton] at he
    subst he
    refine ⟨0, by simp [initState], ?_⟩
    show 0 + h cfg.start cfg.goal ≤ max 0 (h cfg.start cfg.goal)
    omega
  · intro q
    simp [initState, eq_comm]
  · simp [initState]
  · simp [initState]
  · intro hg
    simp only [initState, if_neg (Ne.symm Hne)] at hg
    simp at hg
  · intro q hg hh
    simp only [initState] at hg hh
    by_cases hqs : q = cfg.start
    · subst hqs; simp at hh
    · rw [if_neg hqs] at hg; simp at hg
  · intro e he hrect
    simp only [initState, List.mem_singleton] at he
    subst he
    refine ⟨?_, ?_⟩
    · show (0 : ℕ) ≤ h cfg.start cfg.goal
      omega
    · show (initState cfg c0).gScore cfg.start = some (h cfg.start cfg.start)
      simp [initState, h_self]
  · exact ⟨(0, 0, cfg.start), by simp [initState], rect_start cfg⟩
  · intro e he e' he' _ _ _
    simp only [initState, List.mem_singleton] at he he'
    subst he; subst he'
    exact le_rfl
  · intro e he e' he' _ _
    simp only [initState, List.mem_singleton] at he he'
    subst he; subst he'
    omega
  · intro e he
    simp only [initState, List.mem_singleton] at he
    subst he
    exact Or.inr ⟨rfl, rfl, rfl⟩
  · intro m hm hex
    obtain ⟨e, he, hrect, hlt⟩ := hex
    simp only [initState, List.mem_singleton] at he
    subst he
    simp only [h_self] at hlt
    omega
  · intro q hg hh
    simp only [initState] at hg hh
    by_cases hqs : q = cfg.start
    · subst hqs; simp at hh
    · rw [if_neg hqs] at hg; simp at hg
  · intro n c hc
    simp only [initState] at hc
    cases hc

end Astar

namespace Astar

/-- Whenever the invariants hold, the popped entry is a corridor node
with optimal `g_score`, a stored key at most the Manhattan distance, and
minimal distance-from-start among queued corridor entries. -/
lemma popped_good {cfg : Config} {s : SState} (hE : EInv cfg s) {e : Entry}
    {rest : List Entry} (hpop : popMinQ s.queue = some (e, rest)) :
    e.1 ≤ h cfg.start cfg.goal ∧ Rect cfg e.2.2 ∧
    s.gScore e.2.2 = some (h cfg.start e.2.2) ∧
    (∀ e' ∈ s.queue, Rect cfg e'.2.2 → h cfg.start e.2.2 ≤ h cfg.start e'.2.2) := by
  obtain ⟨hmem, hsub, hlen, hmin⟩ := popMinQ_spec _ _ _ hpop
  obtain ⟨er, her, hrrect⟩ := hE.goodex
  have hkr := hE.krect er her hrrect
  have hkey := hmin er her
  simp only [keyLe, Bool.or_eq_true, Bool.and_eq_true, decide_eq_true_eq, beq_iff_eq] at hkey
  have hek : e.1 ≤ h cfg.start cfg.goal := by omega
  obtain ⟨gq, hgq, hbound⟩ := hE.keys e hmem
  have hlow := hE.lowg _ _ hgq
  have htri := h_triangle cfg.start e.2.2 cfg.goal
  have hbound' : gq + h e.2.2 cfg.goal ≤ h cfg.start cfg.goal := by omega
  have hgopt : gq = h cfg.start e.2.2 := by omega
  have hrect : Rect cfg e.2.2 := by unfold Rect; omega
  refine ⟨hek, hrect, by rw [hgq, hgopt], ?_⟩
  intro e' he' hrect'
  have hk' := hE.krect e' he' hrect'
  have hmin' := hmin e' he'
  simp only [keyLe, Bool.or_eq_true, Bool.and_eq_true, decide_eq_true_eq, beq_iff_eq] at hmin'
  rcases hmin' with hlt | ⟨heq, hcle⟩
  · rcases hE.keylb e hmem with hKK | ⟨hst, -, -⟩
    · omega
    · rw [hst, h_self]
      exact Nat.zero_le _
  · exact hE.dorder e hmem e' he' hrect hrect' hcle

/-- `relaxOne` never discards a score and never increases one. -/
lemma relaxOne_g_decr (cfg : Config) (cur : Pos) (s : SState) (n m : Pos) :
    ((relaxOne cfg cur s n).gScore m = s.gScore m) ∨
    (∃ v, (relaxOne cfg cur s n).gScore m = some v ∧
      ∀ w, s.gScore m = some w → v ≤ w) := by
  rcases relaxOne_cases cfg cur s n with heq | ⟨gc, hgc, hlt, hcase⟩
  · rw [heq]; exact Or.inl rfl
  have hsc : ∀ t : SState, t = relaxScores cfg cur s n (gc + 1) ∨
      t = pushOpen (relaxScores cfg cur s n (gc + 1)) n (gc + 1 + h n cfg.goal) →
      t.gScore m = (relaxScores cfg cur s n (gc + 1)).gScore m := by
    rintro t (rfl | rfl)
    · rfl
    · rw [pushOpen_gScore]
  have heqg : (relaxOne cfg cur s n).gScore m =
      (relaxScores cfg cur s n (gc + 1)).gScore m := by
    rcases hcase with ⟨-, heq⟩ | ⟨-, heq⟩
    · rw [heq]
    · rw [heq, pushOpen_gScore]
  rw [heqg, relaxScores_gScore]
  by_cases hmn : m = n
  · rw [if_pos hmn]
    refine Or.inr ⟨gc + 1, rfl, ?_⟩
    intro w hw
    subst hmn
    rw [hw] at hlt
    simp only [ltG, decide_eq_true_eq] at hlt
    omega
  · rw [if_neg hmn]
    exact Or.inl rfl

/-- Scores only decrease (and stay present) along the relaxation fold. -/
lemma fold_g_decr (cfg : Config) (cur : Pos) :
    ∀ (L : List Pos) (t : SState) (m : Pos) (v : ℕ), t.gScore m = some v →
      ∃ v', (L.foldl (relaxOne cfg cur) t).gScore m = some v' ∧ v' ≤ v := by
  intro L
  induction L with
  | nil => intro t m v hv; exact ⟨v, hv, le_rfl⟩
  | cons n L ih =>
    intro t m v hv
    rcases relaxOne_g_decr cfg cur t n m with heq | ⟨w, hw, hwle⟩
    · exact ih (relaxOne cfg cur t n) m v (heq.trans hv)
    · obtain ⟨v', hv', hle'⟩ := ih (relaxOne cfg cur t n) m w hw
      exact ⟨v', hv', le_trans hle' (hwle v hv)⟩

/-- After relaxing `n` from `cur` (whose score is `gc`), `n` has a score
of at most `gc + 1`. -/
lemma relaxOne_g_after {cfg : Config} {cur : Pos} {s : SState} {n : Pos} {gc : ℕ}
    (hgc : s.gScore cur = some gc) :
    ∃ v, (relaxOne cfg cur s n).gScore n = some v ∧ v ≤ gc + 1 := by
  unfold relaxOne
  rw [hgc]
  dsimp only
  by_cases hlt : ltG (gc + 1) (s.gScore n) = true
  · rw [if_pos hlt]
    by_cases hmem : n ∈ (relaxScores cfg cur s n (gc + 1)).hash
    · rw [if_pos hmem, relaxScores_gScore, if_pos rfl]
      exact ⟨gc + 1, rfl, le_rfl⟩
    · rw [if_neg hmem, pushOpen_gScore, relaxScores_gScore, if_pos rfl]
      exact ⟨gc + 1, rfl, le_rfl⟩
  · rw [if_neg hlt]
    cases hvn : s.gScore n with
    | none =>
      rw [hvn] at hlt
      simp [ltG] at hlt
    | some vn =>
      rw [hvn] at hlt
      simp only [ltG, decide_eq_true_eq] at hlt
      exact ⟨vn, rfl, by omega⟩

/-- `relaxOne` from `cur` leaves `cur`'s own score unchanged when the
target differs from `cur`. -/
lemma relaxOne_g_other (cfg : Config) (cur : Pos) (s : SState) {n m : Pos} (hnm : m ≠ n) :
    (relaxOne cfg cur s n).gScore m = s.gScore m := by
  rcases relaxOne_cases cfg cur s n with heq | ⟨gc, hgc, hlt, hcase⟩
  · rw [heq]
  have heqg : (relaxOne cfg cur s n).gScore m =
      (relaxScores cfg cur s n (gc + 1)).gScore m := by
    rcases hcase with ⟨-, heq⟩ | ⟨-, heq⟩
    · rw [heq]
    · rw [heq, pushOpen_gScore]
  rw [heqg, relaxScores_gScore, if_neg hnm]

/-- Along the fold from `cur`, `cur` keeps its score and every processed
neighbor ends with a score at most `g_score[cur] + 1`. -/
lemma fold_g_le (cfg : Config) (cur : Pos) (gc : ℕ) :
    ∀ (L : List Pos) (t : SState), cur ∉ L → t.gScore cur = some gc →
      (L.foldl (relaxOne cfg cur) t).gScore cur = some gc ∧
      ∀ n ∈ L, ∃ v, (L.foldl (relaxOne cfg cur) t).gScore n = some v ∧ v ≤ gc + 1 := by
  intro L
  induction L with
  | nil => intro t _ hg; exact ⟨hg, by simp⟩
  | cons n L ih =>
    intro t hcur hg
    have hncur : n ≠ cur := by
      intro hcon
      exact hcur (hcon ▸ List.mem_cons_self _ _)
    have hg' : (relaxOne cfg cur t n).gScore cur = some gc := by
      rw [relaxOne_g_other cfg cur t (Ne.symm hncur)]
      exact hg
    have hLcur : cur ∉ L := fun hcon => hcur (List.mem_cons_of_mem _ hcon)
    obtain ⟨hfc, hfL⟩ := ih (relaxOne cfg cur t n) hLcur hg'
    refine ⟨hfc, ?_⟩
    intro m hm
    rcases List.mem_cons.mp hm with rfl | hm
    · obtain ⟨v, hv, hvle⟩ := relaxOne_g_after hg
      obtain ⟨v', hv', hle'⟩ := fold_g_decr cfg cur L (relaxOne cfg cur t m) m v hv
      exact ⟨v', hv', le_trans hle' hvle⟩
    · exact hfL m hm

end Astar

namespace Astar

/-- The invariant maintained while the freshly popped corridor node `q`
relaxes its neighbors one at a time. -/
structure MidInv (cfg : Config) (q : Pos) (t : SState) : Prop where
  core : CoreInv cfg t
  lowg : ∀ p v, t.gScore p = some v → h cfg.start p ≤ v
  keys : ∀ e ∈ t.queue, ∃ gq, t.gScore e.2.2 = some gq ∧
    gq + h e.2.2 cfg.goal ≤ max e.1 (h cfg.start cfg.goal)
  hashq : ∀ p : Pos, p ∈ t.hash ↔ ∃ e ∈ t.queue, e.2.2 = p
  hnd : t.hash.Nodup
  qnd : (t.queue.map fun e => e.2.2).Nodup
  goalq : t.gScore cfg.goal ≠ none → ∃ e ∈ t.queue, e.2.2 = cfg.goal
  popopt : ∀ p : Pos, t.gScore p ≠ none → p ∉ t.hash →
    Rect cfg p ∧ t.gScore p = some (h cfg.start p)
  krect : ∀ e ∈ t.queue, Rect cfg e.2.2 →
    e.1 ≤ h cfg.start cfg.goal ∧ t.gScore e.2.2 = some (h cfg.start e.2.2)
  dorder : ∀ e ∈ t.queue, ∀ e' ∈ t.queue, Rect cfg e.2.2 → Rect cfg e'.2.2 →
    e.2.1 ≤ e'.2.1 → h cfg.start e.2.2 ≤ h cfg.start e'.2.2
  dspan : ∀ e ∈ t.queue, ∀ e' ∈ t.queue, Rect cfg e.2.2 → Rect cfg e'.2.2 →
    h cfg.start e.2.2 ≤ h cfg.start e'.2.2 + 1
  keylb : ∀ e ∈ t.queue, h cfg.start cfg.goal ≤ e.1 ∨
    (e.2.2 = cfg.start ∧ e.2.1 = 0 ∧ e.1 = 0)
  covered : ∀ m : Pos, Rect cfg m →
    (∃ e ∈ t.queue, Rect cfg e.2.2 ∧ h cfg.start m < h cfg.start e.2.2) →
    t.gScore m ≠ none
  nbrCM : ∀ m : Pos, m ≠ q → t.gScore m ≠ none → m ∉ t.hash →
    ∀ n ∈ cfg.nbrs m, ∃ v, t.gScore n = some v ∧ v ≤ h cfg.start m + 1
  cfadj : ∀ n c, t.cameFrom n = some c → h c n = 1
  gq_const : t.gScore q = some (h cfg.start q)
  q_notin : q ∉ t.hash
  ctxspan : ∀ e ∈ t.queue, Rect cfg e.2.2 →
    h cfg.start q ≤ h cfg.start e.2.2 ∧ h cfg.start e.2.2 ≤ h cfg.start q + 1
  below : ∀ m : Pos, Rect cfg m → h cfg.start m < h cfg.start q → t.gScore m ≠ none

/-- Preservation of the mid-relaxation invariant when the relaxed
neighbor is already an open-set member (scores update, no push). -/
lemma midInv_relax_nopush {cfg : Config} {q : Pos} {t : SState} {n : Pos}
    (hM : MidInv cfg q t) (hC : CoreInv cfg (relaxScores cfg q t n (h cfg.start q + 1)))
    (hadj : AdjS q n) (hnq : n ≠ q)
    (hlt : ltG (h cfg.start q + 1) (t.gScore n) = true) (hmem : n ∈ t.hash) :
    MidInv cfg q (relaxScores cfg q t n (h cfg.start q + 1)) := by
  have hstep := @h_adjS_step cfg.start q n hadj
  -- n is a discovered queue node; it cannot be a corridor node
  have hnrect : ¬ Rect cfg n := by
    intro hrect
    obtain ⟨e_n, hen, hns⟩ := (hM.hashq n).mp hmem
    have hk := hM.krect e_n hen (by rw [hns]; exact hrect)
    rw [hns] at hk
    rw [hk.2] at hlt
    simp only [ltG, decide_eq_true_eq] at hlt
    omega
  -- the relaxed value is above the Manhattan bound for n
  have hlow_n : h cfg.start n ≤ h cfg.start q + 1 := by omega
  constructor
  · exact hC
  · intro p v hp
    rw [relaxScores_gScore] at hp
    by_cases hpn : p = n
    · rw [if_pos hpn] at hp
      obtain rfl : h cfg.start q + 1 = v := by cases hp; rfl
      rw [hpn]
      exact hlow_n
    · rw [if_neg hpn] at hp
      exact hM.lowg p v hp
  · intro e he
    rw [relaxScores_queue] at he
    obtain ⟨gq', hold, hb⟩ := hM.keys e he
    rw [relaxScores_gScore]
    by_cases hpn : e.2.2 = n
    · rw [if_pos hpn]
      rw [hpn] at hold
      rw [hold] at hlt
      simp only [ltG, decide_eq_true_eq] at hlt
      refine ⟨h cfg.start q + 1, rfl, ?_⟩
      rw [hpn]
      rw [hpn] at hb
      omega
    · rw [if_neg hpn]
      exact ⟨gq', hold, hb⟩
  · intro p
    rw [relaxScores_queue]
    show p ∈ t.hash ↔ _
    exact hM.hashq p
  · exact hM.hnd
  · rw [relaxScores_queue]; exact hM.qnd
  · intro hg
    rw [relaxScores_gScore] at hg
    rw [relaxScores_queue]
    by_cases hgn : cfg.goal = n
    · obtain ⟨e_n, hen, hns⟩ := (hM.hashq n).mp hmem
      exact ⟨e_n, hen, by rw [hns, hgn]⟩
    · rw [if_neg hgn] at hg
      exact hM.goalq hg
  · intro p hg hh
    rw [relaxScores_gScore] at hg
    rw [relaxScores_hash] at hh
    by_cases hpn : p = n
    · exact absurd (hpn ▸ hmem) hh
    · rw [if_neg hpn] at hg
      have := hM.popopt p hg hh
      refine ⟨this.1, ?_⟩
      rw [relaxScores_gScore, if_neg hpn]
      exact this.2
  · intro e he hrect
    rw [relaxScores_queue] at he
    have hne : e.2.2 ≠ n := fun hcon => hnrect (hcon ▸ hrect)
    obtain ⟨h1, h2⟩ := hM.krect e he hrect
    exact ⟨h1, by rw [relaxScores_gScore, if_neg hne]; exact h2⟩
  · intro e he e' he' r1 r2 hce
    rw [relaxScores_queue] at he he'
    exact hM.dorder e he e' he' r1 r2 hce
  · intro e he e' he' r1 r2
    rw [relaxScores_queue] at he he'
    exact hM.dspan e he e' he' r1 r2
  · intro e he
    rw [relaxScores_queue] at he
    exact hM.keylb e he
  · intro m hm hex
    rw [relaxScores_gScore]
    have hold : t.gScore m ≠ none := by
      refine hM.covered m hm ?_
      obtain ⟨e, he, hr, hlt'⟩ := hex
      rw [relaxScores_queue] at he
      exact ⟨e, he, hr, hlt'⟩
    by_cases hpn : m = n
    · rw [if_pos hpn]; simp
    · rw [if_neg hpn]; exact hold
  · intro m hmq hg hh
    rw [relaxScores_gScore] at hg
    rw [relaxScores_hash] at hh
    have hmn : m ≠ n := fun hcon => hh (hcon ▸ hmem)
    rw [if_neg hmn] at hg
    intro nn hnn
    obtain ⟨v, hv, hvle⟩ := hM.nbrCM m hmq hg hh nn hnn
    rw [relaxScores_gScore]
    by_cases hnnn : nn = n
    · subst hnnn
      rw [if_pos rfl]
      rw [hv] at hlt
      simp only [ltG, decide_eq_true_eq] at hlt
      exact ⟨h cfg.start q + 1, rfl, by omega⟩
    · rw [if_neg hnnn]
      exact ⟨v, hv, hvle⟩
  · intro m c hc
    rw [relaxScores_cameFrom] at hc
    by_cases hmn : m = n
    · rw [if_pos hmn] at hc
      obtain rfl : q = c := by cases hc; rfl
      rw [hmn]
      exact h_adjS hadj
    · rw [if_neg hmn] at hc
      exact hM.cfadj m c hc
  · rw [relaxScores_gScore, if_neg (Ne.symm hnq)]
    exact hM.gq_const
  · exact hM.q_notin
  · intro e he
    rw [relaxScores_queue] at he
    exact hM.ctxspan e he
  · intro m hm hlt'
    rw [relaxScores_gScore]
    have hold := hM.below m hm hlt'
    by_cases hpn : m = n
    · rw [if_pos hpn]; simp
    · rw [if_neg hpn]; exact hold

end Astar

namespace Astar

/-- Preservation of the mid-relaxation invariant when the relaxed
neighbor is newly discovered and pushed onto the frontier. -/
lemma midInv_relax_push {cfg : Config} {c0 : Pos → Color}
    (HR : cfg.nbrs = updateNeighbors cfg.R c0) (Hb : ∀ p, c0 p ≠ Color.black)
    (Hs : cfg.start.1 < cfg.R ∧ cfg.start.2 < cfg.R)
    (Hg : cfg.goal.1 < cfg.R ∧ cfg.goal.2 < cfg.R)
    {q : Pos} (hqrect : Rect cfg q) {t : SState} {n : Pos}
    (hM : MidInv cfg q t)
    (hC : CoreInv cfg (pushOpen (relaxScores cfg q t n (h cfg.start q + 1)) n
      (h cfg.start q + 1 + h n cfg.goal)))
    (hadj : AdjS q n) (hnq : n ≠ q)
    (hlt : ltG (h cfg.start q + 1) (t.gScore n) = true) (hmem : n ∉ t.hash) :
    MidInv cfg q (pushOpen (relaxScores cfg q t n (h cfg.start q + 1)) n
      (h cfg.start q + 1 + h n cfg.goal)) := by
  have hstep := @h_adjS_step cfg.start q n hadj
  have htri := h_triangle cfg.start n cfg.goal
  -- n was undiscovered
  have hnone : t.gScore n = none := by
    cases hvn : t.gScore n with
    | none => rfl
    | some vn =>
      have hpo := hM.popopt n (by rw [hvn]; simp) hmem
      rw [hvn] at hlt
      simp only [ltG, decide_eq_true_eq] at hlt
      rw [hvn] at hpo
      obtain rfl : vn = h cfg.start n := by cases hpo.2; rfl
      omega
  -- no queue entry mentions n
  have hno_entry : ∀ e ∈ t.queue, e.2.2 ≠ n := by
    intro e he hcon
    exact hmem ((hM.hashq n).mpr ⟨e, he, hcon⟩)
  -- facts when n is itself on the corridor
  have hrfacts : Rect cfg n → h cfg.start n = h cfg.start q + 1 ∧
      h cfg.start q + 1 + h n cfg.goal = h cfg.start cfg.goal := by
    intro hrect
    have hdn : h cfg.start n = h cfg.start q + 1 := by
      rcases hstep with hup | hdown
      · exact hup
      · exact absurd hnone (hM.below n hrect (by omega))
    unfold Rect at hrect
    exact ⟨hdn, by omega⟩
  have hqueue : (pushOpen (relaxScores cfg q t n (h cfg.start q + 1)) n
      (h cfg.start q + 1 + h n cfg.goal)).queue =
      t.queue ++ [(h cfg.start q + 1 + h n cfg.goal, t.count + 1, n)] := by
    rw [pushOpen_queue, relaxScores_queue, relaxScores_count]
  have hhash : (pushOpen (relaxScores cfg q t n (h cfg.start q + 1)) n
      (h cfg.start q + 1 + h n cfg.goal)).hash = n :: t.hash := by
    rw [pushOpen_hash, relaxScores_hash]
  have hgsc : ∀ p : Pos, (pushOpen (relaxScores cfg q t n (h cfg.start q + 1)) n
      (h cfg.start q + 1 + h n cfg.goal)).gScore p =
      if p = n then some (h cfg.start q + 1) else t.gScore p := by
    intro p
    rw [pushOpen_gScore, relaxScores_gScore]
  have hcf : ∀ p : Pos, (pushOpen (relaxScores cfg q t n (h cfg.start q + 1)) n
      (h cfg.start q + 1 + h n cfg.goal)).cameFrom p =
      if p = n then some q else t.cameFrom p := by
    intro p
    rw [pushOpen_cameFrom, relaxScores_cameFrom]
  constructor
  · exact hC
  · intro p v hp
    rw [hgsc] at hp
    by_cases hpn : p = n
    · rw [if_pos hpn] at hp
      obtain rfl : h cfg.start q + 1 = v := by cases hp; rfl
      rw [hpn]
      omega
    · rw [if_neg hpn] at hp
      exact hM.lowg p v hp
  · intro e he
    rw [hqueue, List.mem_append] at he
    rw [hgsc]
    rcases he with he | he
    · obtain ⟨gq', hold, hb⟩ := hM.keys e he
      rw [if_neg (hno_entry e he)]
      exact ⟨gq', hold, hb⟩
    · rw [List.mem_singleton] at he
      subst he
      rw [if_pos rfl]
      exact ⟨h cfg.start q + 1, rfl, le_max_left _ _⟩
  · intro p
    rw [hhash, hqueue]
    constructor
    · intro hp
      rcases List.mem_cons.mp hp with rfl | hp
      · exact ⟨(h cfg.start q + 1 + h p cfg.goal, t.count + 1, p), by simp, rfl⟩
      · obtain ⟨e, he, hes⟩ := (hM.hashq p).mp hp
        exact ⟨e, by simp [he], hes⟩
    · rintro ⟨e, he, rfl⟩
      rw [List.mem_append] at he
      rcases he with he | he
      · exact List.mem_cons_of_mem _ ((hM.hashq _).mpr ⟨e, he, rfl⟩)
      · rw [List.mem_singleton] at he
        subst he
        exact List.mem_cons_self _ _
  · rw [hhash]
    exact List.Nodup.cons hmem hM.hnd
  · rw [hqueue, List.map_append]
    refine List.Nodup.append hM.qnd (by simp) ?_
    intro a ha hb
    simp only [List.map_cons, List.map_nil, List.mem_singleton] at hb
    subst hb
    rw [List.mem_map] at ha
    obtain ⟨e, he, hes⟩ := ha
    exact hno_entry e he hes
  · intro hg
    rw [hgsc] at hg
    rw [hqueue]
    by_cases hgn : cfg.goal = n
    · exact ⟨(h cfg.start q + 1 + h n cfg.goal, t.count + 1, n), by simp, hgn.symm⟩
    · rw [if_neg hgn] at hg
      obtain ⟨e, he, hes⟩ := hM.goalq hg
      exact ⟨e, by simp [he], hes⟩
  · intro p hp hh
    rw [hgsc] at hp
    rw [hhash] at hh
    have hpn : p ≠ n := by
      intro hcon
      exact hh (hcon ▸ List.mem_cons_self _ _)
    rw [if_neg hpn] at hp
    have hph : p ∉ t.hash := fun hcon => hh (List.mem_cons_of_mem _ hcon)
    obtain ⟨h1, h2⟩ := hM.popopt p hp hph
    refine ⟨h1, ?_⟩
    rw [hgsc, if_neg hpn]
    exact h2
  · intro e he hrect
    rw [hqueue, List.mem_append] at he
    rcases he with he | he
    · obtain ⟨h1, h2⟩ := hM.krect e he hrect
      exact ⟨h1, by rw [hgsc, if_neg (hno_entry e he)]; exact h2⟩
    · rw [List.mem_singleton] at he
      subst he
      obtain ⟨hdn, hkey⟩ := hrfacts hrect
      refine ⟨by simp only []; omega, ?_⟩
      rw [hgsc]
      show (if n = n then some (h cfg.start q + 1) else t.gScore n) = some (h cfg.start n)
      rw [if_pos rfl, hdn]
  · intro e he e' he' r1 r2 hce
    rw [hqueue, List.mem_append] at he he'
    rcases he with he | he <;> rcases he' with he' | he'
    · exact hM.dorder e he e' he' r1 r2 hce
    · rw [List.mem_singleton] at he'
      subst he'
      obtain ⟨hdn, -⟩ := hrfacts r2
      have := (hM.ctxspan e he r1).2
      simp only []
      omega
    · rw [List.mem_singleton] at he
      subst he
      have := hM.core.counts_le e' he'
      simp only [] at hce
      omega
    · rw [List.mem_singleton] at he he'
      subst he; subst he'
      exact le_rfl
  · intro e he e' he' r1 r2
    rw [hqueue, List.mem_append] at he he'
    rcases he with he | he <;> rcases he' with he' | he'
    · exact hM.dspan e he e' he' r1 r2
    · rw [List.mem_singleton] at he'
      subst he'
      obtain ⟨hdn, -⟩ := hrfacts r2
      have := (hM.ctxspan e he r1).2
      simp only []
      omega
    · rw [List.mem_singleton] at he
      subst he
      obtain ⟨hdn, -⟩ := hrfacts r1
      have := (hM.ctxspan e' he' r2).1
      simp only []
      omega
    · rw [List.mem_singleton] at he he'
      subst he; subst he'
      omega
  · intro e he
    rw [hqueue, List.mem_append] at he
    rcases he with he | he
    · exact hM.keylb e he
    · rw [List.mem_singleton] at he
      subst he
      refine Or.inl ?_
      have hk := h_triangle cfg.start n cfg.goal
      simp only []
      omega
  · intro m hm hex
    rw [hgsc]
    by_cases hmn : m = n
    · rw [if_pos hmn]; simp
    · rw [if_neg hmn]
      obtain ⟨e, he, hr, hlt'⟩ := hex
      rw [hqueue, List.mem_append] at he
      rcases he with he | he
      · exact hM.covered m hm ⟨e, he, hr, hlt'⟩
      · rw [List.mem_singleton] at he
        subst he
        obtain ⟨hdn, -⟩ := hrfacts hr
        simp only [] at hlt'
        rw [hdn] at hlt'
        by_cases hm0 : h cfg.start m = 0
        · have hms : m = cfg.start := rect_dist_zero hm hm0
          rw [hms, hM.core.g0]
          simp
        · have hmns : m ≠ cfg.start := by
            intro hcon
            rw [hcon, h_self] at hm0
            exact hm0 rfl
          obtain ⟨y, hymem, hyrect, hyd⟩ := backward_step HR Hb Hs Hg hm hmns
          have hydlt : h cfg.start y < h cfg.start q := by omega
          have hydisc : t.gScore y ≠ none := hM.below y hyrect hydlt
          have hyhash : y ∉ t.hash := by
            intro hcon
            obtain ⟨e_y, hey, heys⟩ := (hM.hashq y).mp hcon
            have := (hM.ctxspan e_y hey (by rw [heys]; exact hyrect)).1
            rw [heys] at this
            omega
          have hynq : y ≠ q := by
            intro hcon
            rw [hcon] at hydlt
            omega
          obtain ⟨v, hv, -⟩ := hM.nbrCM y hynq hydisc hyhash m hymem
          rw [hv]
          simp
  · intro m hmq hg hh
    rw [hgsc] at hg
    rw [hhash] at hh
    have hmn : m ≠ n := by
      intro hcon
      exact hh (hcon ▸ List.mem_cons_self _ _)
    rw [if_neg hmn] at hg
    have hmh : m ∉ t.hash := fun hcon => hh (List.mem_cons_of_mem _ hcon)
    intro nn hnn
    by_cases hnnn : nn = n
    · exfalso
      obtain ⟨v, hv, -⟩ := hM.nbrCM m hmq hg hmh nn hnn
      rw [hnnn, hnone] at hv
      cases hv
    · obtain ⟨v, hv, hvle⟩ := hM.nbrCM m hmq hg hmh nn hnn
      rw [hgsc, if_neg hnnn]
      exact ⟨v, hv, hvle⟩
  · intro m c hc
    rw [hcf] at hc
    by_cases hmn : m = n
    · rw [if_pos hmn] at hc
      obtain rfl : q = c := by cases hc; rfl
      rw [hmn]
      exact h_adjS hadj
    · rw [if_neg hmn] at hc
      exact hM.cfadj m c hc
  · rw [hgsc, if_neg (Ne.symm hnq)]
    exact hM.gq_const
  · rw [hhash]
    intro hcon
    rcases List.mem_cons.mp hcon with hcon | hcon
    · exact hnq hcon.symm
    · exact hM.q_notin hcon
  · intro e he
    rw [hqueue, List.mem_append] at he
    intro hrect
    rcases he with he | he
    · exact hM.ctxspan e he hrect
    · rw [List.mem_singleton] at he
      subst he
      obtain ⟨hdn, -⟩ := hrfacts hrect
      simp only []
      omega
  · intro m hm hlt'
    rw [hgsc]
    by_cases hmn : m = n
    · rw [if_pos hmn]; simp
    · rw [if_neg hmn]
      exact hM.below m hm hlt'

end Astar

namespace Astar

lemma midInv_relax {cfg : Config} {c0 : Pos → Color}
    (HR : cfg.nbrs = updateNeighbors cfg.R c0) (Hb : ∀ p, c0 p ≠ Color.black)
    (Hs : cfg.start.1 < cfg.R ∧ cfg.start.2 < cfg.R)
    (Hg : cfg.goal.1 < cfg.R ∧ cfg.goal.2 < cfg.R)
    {q : Pos} (hqrect : Rect cfg q) {t : SState} {n : Pos}
    (hn : n ∈ cfg.nbrs q) (hM : MidInv cfg q t) :
    MidInv cfg q (relaxOne cfg q t n) := by
  have hC := coreInv_relax q t n hM.core
  rcases relaxOne_cases cfg q t n with heq | ⟨gc, hgc, hlt, hcase⟩
  · rw [heq]; exact hM
  have hadj : AdjS q n := by
    have hn' : n ∈ updateNeighbors cfg.R c0 q := by rw [← HR]; exact hn
    exact mem_nbrs_adjS hn'
  have hnq : n ≠ q := by
    intro hcon
    have hone := h_adjS hadj
    rw [hcon, h_self] at hone
    cases hone
  have hgcd : gc = h cfg.start q := by
    rw [hM.gq_const] at hgc
    cases hgc; rfl
  subst hgcd
  rcases hcase with ⟨hmem, heq⟩ | ⟨hmem, heq⟩
  · rw [heq]
    rw [heq] at hC
    exact midInv_relax_nopush hM hC hadj hnq hlt hmem
  · rw [heq]
    rw [heq] at hC
    exact midInv_relax_push HR Hb Hs Hg hqrect hM hC hadj hnq hlt hmem

lemma popMinQ_perm :
    ∀ (l : List Entry) (e : Entry) (rest : List Entry), popMinQ l = some (e, rest) →
      l.Perm (e :: rest) := by
  intro l
  induction l with
  | nil => intro e rest hrest; simp [popMinQ] at hrest
  | cons x xs ih =>
    intro e rest hrest
    rw [popMinQ] at hrest
    cases hxs : popMinQ xs with
    | none =>
      have hnil : xs = [] := by
        cases xs with
        | nil => rfl
        | cons y ys => have := popMinQ_cons y ys; rw [hxs] at this; simp at this
      rw [hxs] at hrest
      obtain ⟨rfl, rfl⟩ : x = e ∧ ([] : List Entry) = rest := by
        constructor <;> cases hrest <;> rfl
      rw [hnil]
    | some p =>
      obtain ⟨m, r⟩ := p
      have hperm := ih m r hxs
      rw [hxs] at hrest
      dsimp only at hrest
      by_cases hk : keyLe x m = true
      · rw [if_pos hk] at hrest
        obtain ⟨rfl, rfl⟩ : x = e ∧ xs = rest := by
          constructor <;> cases hrest <;> rfl
        exact List.Perm.refl _
      · rw [if_neg hk] at hrest
        obtain ⟨rfl, rfl⟩ : m = e ∧ x :: r = rest := by
          constructor <;> cases hrest <;> rfl
        exact (hperm.cons x).trans (List.Perm.swap m x r)

/-- The part of `CoreInv` preservation for popping the minimum entry. -/
lemma coreInv_pop {cfg : Config} {s : SState} {e : Entry} {rest : List Entry}
    (hI : CoreInv cfg s) (hq : popMinQ s.queue = some (e, rest)) :
    CoreInv cfg { s with queue := rest, hash := s.hash.erase e.2.2 } := by
  obtain ⟨hmem, hsub, hlen, hmin⟩ := popMinQ_spec s.queue e rest hq
  constructor
  · exact hI.g0
  · exact hI.cf_start
  · exact hI.cf_g
  · exact hI.disc_cf
  · intro e' he'; exact hI.queue_g e' (hsub.subset he')
  · exact hI.counts_lt.sublist hsub
  · intro e' he'; exact hI.counts_le e' (hsub.subset he')
  · exact hI.ev_start_g
  · exact hI.ev_start_r
  · exact hI.ev_goal_r

/-- Popping the minimum entry establishes the mid-relaxation invariant
for the popped node. -/
lemma midInv_pop {cfg : Config} {s : SState} {e : Entry} {rest : List Entry}
    (hE : EInv cfg s) (hI : CoreInv cfg s)
    (hpop : popMinQ s.queue = some (e, rest)) (hne_goal : e.2.2 ≠ cfg.goal) :
    MidInv cfg e.2.2 { s with queue := rest, hash := s.hash.erase e.2.2 } := by
  obtain ⟨hmem, hsub, hlen, hmin⟩ := popMinQ_spec s.queue e rest hpop
  have hperm := popMinQ_perm s.queue e rest hpop
  obtain ⟨hek, hrect, hgopt, hmind⟩ := popped_good hE hpop
  have hnodes : ((e :: rest).map fun e' => e'.2.2).Nodup := (hperm.map _).nodup hE.qnd
  have hn_rest : ∀ e' ∈ rest, e'.2.2 ≠ e.2.2 := by
    intro e' he' hcon
    simp only [List.map_cons, List.nodup_cons] at hnodes
    exact hnodes.1 (hcon ▸ List.mem_map_of_mem _ he')
  constructor
  · exact coreInv_pop hI hpop
  · exact hE.lowg
  · intro e' he'
    exact hE.keys e' (hsub.subset he')
  · intro p
    show p ∈ s.hash.erase e.2.2 ↔ ∃ e' ∈ rest, e'.2.2 = p
    rw [hE.hnd.mem_erase_iff]
    constructor
    · rintro ⟨hpe, hp⟩
      obtain ⟨e', he', hes⟩ := (hE.hashq p).mp hp
      have he'' : e' ∈ e :: rest := hperm.mem_iff.mp he'
      rcases List.mem_cons.mp he'' with heq' | he''
      · exfalso
        apply hpe
        rw [← hes, heq']
      · exact ⟨e', he'', hes⟩
    · rintro ⟨e', he', rfl⟩
      refine ⟨hn_rest e' he', ?_⟩
      exact (hE.hashq _).mpr ⟨e', hsub.subset he', rfl⟩
  · exact hE.hnd.erase _
  · exact hE.qnd.sublist (hsub.map _)
  · intro hg
    obtain ⟨e', he', hes⟩ := hE.goalq hg
    have he'' : e' ∈ e :: rest := hperm.mem_iff.mp he'
    rcases List.mem_cons.mp he'' with rfl | he''
    · exact absurd hes hne_goal
    · exact ⟨e', he'', hes⟩
  · intro p hp hh
    have hh' : p ∉ s.hash.erase e.2.2 := hh
    by_cases hpe : p = e.2.2
    · subst hpe
      exact ⟨hrect, hgopt⟩
    · refine hE.popopt p hp ?_
      intro hcon
      exact hh' (hE.hnd.mem_erase_iff.mpr ⟨hpe, hcon⟩)
  · intro e' he'
    exact hE.krect e' (hsub.subset he')
  · intro e' he' e'' he'' r1 r2 hce
    exact hE.dorder e' (hsub.subset he') e'' (hsub.subset he'') r1 r2 hce
  · intro e' he' e'' he'' r1 r2
    exact hE.dspan e' (hsub.subset he') e'' (hsub.subset he'') r1 r2
  · intro e' he'
    exact hE.keylb e' (hsub.subset he')
  · intro m hm hex
    obtain ⟨e', he', hr, hlt'⟩ := hex
    exact hE.covered m hm ⟨e', hsub.subset he', hr, hlt'⟩
  · intro m hmq hg hh
    have hh' : m ∉ s.hash.erase e.2.2 := hh
    refine hE.nbrC m hg ?_
    intro hcon
    exact hh' (hE.hnd.mem_erase_iff.mpr ⟨hmq, hcon⟩)
  · exact hE.cfadj
  · exact hgopt
  · show e.2.2 ∉ s.hash.erase e.2.2
    intro hcon
    exact (hE.hnd.mem_erase_iff.mp hcon).1 rfl
  · intro e' he' hr
    refine ⟨hmind e' (hsub.subset he') hr, ?_⟩
    exact hE.dspan e' (hsub.subset he') e hmem hr hrect
  · intro m hm hlt'
    exact hE.covered m hm ⟨e, hmem, hrect, hlt'⟩

end Astar

namespace Astar

lemma self_not_mem_nbrs {cfg : Config} {c0 : Pos → Color}
    (HR : cfg.nbrs = updateNeighbors cfg.R c0) (q : Pos) : q ∉ cfg.nbrs q := by
  intro hcon
  rw [HR] at hcon
  have hone := h_adjS (mem_nbrs_adjS hcon)
  rw [h_self] at hone
  cases hone

/-- After the popped corridor node finishes relaxing, the frontier again
holds a corridor entry: walk a monotone corridor from the popped node
toward the goal until an unpopped node (necessarily queued) is found. -/
lemma exists_rect_entry {cfg : Config} {c0 : Pos → Color}
    (HR : cfg.nbrs = updateNeighbors cfg.R c0) (Hb : ∀ p, c0 p ≠ Color.black)
    (Hs : cfg.start.1 < cfg.R ∧ cfg.start.2 < cfg.R)
    (Hg : cfg.goal.1 < cfg.R ∧ cfg.goal.2 < cfg.R)
    {q : Pos} {t : SState} (hM : MidInv cfg q t)
    (hnbr : ∀ n ∈ cfg.nbrs q, ∃ v, t.gScore n = some v ∧ v ≤ h cfg.start q + 1)
    (hqrect : Rect cfg q) :
    ∃ e ∈ t.queue, Rect cfg e.2.2 := by
  have key : ∀ (j : ℕ) (z : Pos), h z cfg.goal ≤ j → Rect cfg z → t.gScore z ≠ none →
      ∃ e ∈ t.queue, Rect cfg e.2.2 := by
    intro j
    induction j with
    | zero =>
      intro z hj hzrect hzdisc
      have hz : z = cfg.goal := h_eq_zero (by omega)
      obtain ⟨e, he, hes⟩ := hM.goalq (hz ▸ hzdisc)
      exact ⟨e, he, by rw [hes]; exact rect_goal cfg⟩
    | succ j ih =>
      intro z hj hzrect hzdisc
      by_cases hzh : z ∈ t.hash
      · obtain ⟨e, he, hes⟩ := (hM.hashq z).mp hzh
        exact ⟨e, he, by rw [hes]; exact hzrect⟩
      · by_cases hzg : z = cfg.goal
        · obtain ⟨e, he, hes⟩ := hM.goalq (hzg ▸ hzdisc)
          exact ⟨e, he, by rw [hes]; exact rect_goal cfg⟩
        · obtain ⟨z', hz'mem, hz'rect, hz'up, hz'dec, -, -⟩ :=
            forward_step HR Hb Hs Hg hzrect hzg
          have hz'disc : t.gScore z' ≠ none := by
            by_cases hzq : z = q
            · obtain ⟨v, hv, -⟩ := hnbr z' (hzq ▸ hz'mem)
              rw [hv]; simp
            · obtain ⟨v, hv, -⟩ := hM.nbrCM z hzq hzdisc hzh z' hz'mem
              rw [hv]; simp
          exact ih z' (by omega) hz'rect hz'disc
  refine key (h q cfg.goal) q le_rfl hqrect ?_
  rw [hM.gq_const]
  simp

/-- `mark` changes only colors and the event trace, so the A* invariant
is unaffected. -/
lemma einv_mark {cfg : Config} {s : SState} (hE : EInv cfg s) (p : Pos) (c : Color) :
    EInv cfg (mark s p c) :=
  ⟨hE.lowg, hE.keys, hE.hashq, hE.hnd, hE.qnd, hE.goalq, hE.popopt, hE.krect, hE.goodex,
    hE.dorder, hE.dspan, hE.keylb, hE.covered, hE.nbrC, hE.cfadj⟩

/-- Every continuing loop step preserves the A* invariant. -/
lemma einv_steps {cfg : Config} {c0 : Pos → Color}
    (HR : cfg.nbrs = updateNeighbors cfg.R c0) (Hb : ∀ p, c0 p ≠ Color.black)
    (Hs : cfg.start.1 < cfg.R ∧ cfg.start.2 < cfg.R)
    (Hg : cfg.goal.1 < cfg.R ∧ cfg.goal.2 < cfg.R)
    {s s' : SState} (hI : CoreInv cfg s) (hE : EInv cfg s) (hstep : Steps cfg s s') :
    EInv cfg s' := by
  obtain ⟨e, rest, hq, hgoal, hs'⟩ := step_cont_cases hstep
  obtain ⟨hek, hrect, hgopt, hmind⟩ := popped_good hE hq
  have hM₁ := midInv_pop hE hI hq hgoal
  have hM₂ : MidInv cfg e.2.2 ((cfg.nbrs e.2.2).foldl (relaxOne cfg e.2.2)
      { s with queue := rest, hash := s.hash.erase e.2.2 }) := by
    refine foldl_pres _ _ hM₁ ?_
    intro t a ha ht
    exact midInv_relax HR Hb Hs Hg hrect ha ht
  have hqnn := self_not_mem_nbrs HR e.2.2
  obtain ⟨hgq₂, hnb₂⟩ := fold_g_le cfg e.2.2 (h cfg.start e.2.2) (cfg.nbrs e.2.2)
    { s with queue := rest, hash := s.hash.erase e.2.2 } hqnn hM₁.gq_const
  have hgood := exists_rect_entry HR Hb Hs Hg hM₂ hnb₂ hrect
  have hE₂ : EInv cfg ((cfg.nbrs e.2.2).foldl (relaxOne cfg e.2.2)
      { s with queue := rest, hash := s.hash.erase e.2.2 }) := by
    refine ⟨hM₂.lowg, hM₂.keys, hM₂.hashq, hM₂.hnd, hM₂.qnd, hM₂.goalq, hM₂.popopt,
      hM₂.krect, hgood, hM₂.dorder, hM₂.dspan, hM₂.keylb, hM₂.covered, ?_, hM₂.cfadj⟩
    intro m hm hh n hn
    by_cases hmq : m = e.2.2
    · subst hmq
      obtain ⟨v, hv, hvle⟩ := hnb₂ n hn
      exact ⟨v, hv, hvle⟩
    · exact hM₂.nbrCM m hmq hm hh n hn
  by_cases hss : e.2.2 = cfg.start
  · rw [hs', if_pos hss]
    exact hE₂
  · rw [hs', if_neg hss]
    exact einv_mark hE₂ _ _

/-- The combined invariant holds at every reachable loop state. -/
lemma coreEinv_reachable {cfg : Config} {c0 : Pos → Color}
    (HR : cfg.nbrs = updateNeighbors cfg.R c0) (Hb : ∀ p, c0 p ≠ Color.black)
    (Hs : cfg.start.1 < cfg.R ∧ cfg.start.2 < cfg.R)
    (Hg : cfg.goal.1 < cfg.R ∧ cfg.goal.2 < cfg.R) (Hne : cfg.start ≠ cfg.goal)
    {s : SState} (hr : Reachable cfg c0 s) : CoreInv cfg s ∧ EInv cfg s := by
  refine @reachable_invariant cfg c0 (fun t => CoreInv cfg t ∧ EInv cfg t)
    ⟨coreInv_init cfg c0, einv_init cfg c0 Hne⟩ ?_ s hr
  intro t t' ht hstep
  exact ⟨coreInv_steps t t' ht.1 hstep, einv_steps HR Hb Hs Hg ht.1 ht.2 hstep⟩

end Astar

namespace Astar

/-- The reconstruction chain of a node is no longer than its `g_score`. -/
lemma chainList_length_le {cfg : Config} {s : SState} (hI : CoreInv cfg s) :
    ∀ (fuel : ℕ) (n : Pos) (gn : ℕ), s.gScore n = some gn →
      (chainList fuel s.cameFrom n).length ≤ gn := by
  intro fuel
  induction fuel with
  | zero => intro n gn _; simp [chainList]
  | succ fuel ih =>
    intro n gn hgn
    rw [chainList]
    cases hc : s.cameFrom n with
    | none => simp
    | some c =>
      obtain ⟨gn', gc, hgn', hgc, hlt⟩ := hI.cf_g n c hc
      rw [hgn] at hgn'
      have hgneq : gn = gn' := by cases hgn'; rfl
      have := ih c gc hgc
      simp only [List.length_cons]
      omega

/-- When the chain is complete, its length is at least the Manhattan
distance from start, because consecutive chain cells are adjacent. -/
lemma chainList_length_ge {cfg : Config} {s : SState} (hI : CoreInv cfg s)
    (hadj : ∀ n c, s.cameFrom n = some c → h c n = 1) :
    ∀ (N gn : ℕ) (n : Pos) (fuel : ℕ), gn ≤ N → s.gScore n = some gn → gn < fuel →
      h cfg.start n ≤ (chainList fuel s.cameFrom n).length := by
  intro N
  induction N with
  | zero =>
    intro gn n fuel hle hgn hfuel
    by_cases hns : n = cfg.start
    · subst hns; rw [h_self]; omega
    · have hcf : s.cameFrom n ≠ none := hI.disc_cf n hns (by rw [hgn]; simp)
      cases hc : s.cameFrom n with
      | none => exact absurd hc hcf
      | some c =>
        obtain ⟨gn', gc, hgn', hgc, hlt⟩ := hI.cf_g n c hc
        rw [hgn] at hgn'
        have hgneq : gn = gn' := by cases hgn'; rfl
        omega
  | succ N ih =>
    intro gn n fuel hle hgn hfuel
    by_cases hns : n = cfg.start
    · subst hns; rw [h_self]; omega
    · have hcf : s.cameFrom n ≠ none := hI.disc_cf n hns (by rw [hgn]; simp)
      cases hc : s.cameFrom n with
      | none => exact absurd hc hcf
      | some c =>
        obtain ⟨gn', gc, hgn', hgc, hlt⟩ := hI.cf_g n c hc
        rw [hgn] at hgn'
        have hgneq : gn = gn' := by cases hgn'; rfl
        obtain ⟨f, rfl⟩ : ∃ f, fuel = f + 1 := ⟨fuel - 1, by omega⟩
        rw [chainList, hc]
        have hrec : h cfg.start c ≤ (chainList f s.cameFrom c).length :=
          ih gc c f (by omega) hgc (by omega)
        have htri : h cfg.start n ≤ h cfg.start c + h c n := h_triangle _ _ _
        have hone : h c n = 1 := hadj n c hc
        simp only [List.length_cons]
        omega

/-- C3: on every barrier-free grid with adjacency derived and distinct
in-grid start and end, the search succeeds and the reconstructed
`came_from` chain from end has length exactly the Manhattan distance
between start and end. -/
theorem C3_empty_grid_manhattan (cfg : Config) (c0 : Pos → Color)
    (HR : cfg.nbrs = updateNeighbors cfg.R c0)
    (Hb : ∀ p, c0 p ≠ Color.black)
    (Hs : cfg.start.1 < cfg.R ∧ cfg.start.2 < cfg.R)
    (Hg : cfg.goal.1 < cfg.R ∧ cfg.goal.2 < cfg.R)
    (Hne : cfg.start ≠ cfg.goal) :
    ∃ s', algorithm cfg c0 = some (true, s') ∧
      (chainList (cfg.R * cfg.R + 1) s'.cameFrom cfg.goal).length =
        h cfg.start cfg.goal := by
  obtain ⟨b, s', halg⟩ := algorithm_total cfg c0 HR Hs
  obtain ⟨t, hreach, hdone⟩ := algorithm_final halg
  obtain ⟨hI, hE⟩ := coreEinv_reachable HR Hb Hs Hg Hne hreach
  have hGI : GInv cfg t := by
    refine gInv_reachable ?_ Hs hreach
    intro p hp1 hp2 q hq
    rw [HR] at hq
    exact updateNeighbors_bounded hp1 hp2 hq
  rcases step_done_cases hdone with ⟨rfl, heq, hq⟩ | ⟨rfl, e, rest, hq, hgoal, hs'⟩
  · exfalso
    rw [popMinQ_none_iff] at hq
    obtain ⟨e, he, -⟩ := hE.goodex
    rw [hq] at he
    simp at he
  · refine ⟨s', halg, ?_⟩
    obtain ⟨hek, hrect, hgopt, -⟩ := popped_good hE hq
    rw [hgoal] at hgopt
    -- the final state's chain is the loop state's chain
    have hcf : s'.cameFrom = t.cameFrom := by
      rw [hs', mark_cameFrom, reconstructPath_cameFrom]
    rw [hcf]
    -- g_score[end] is below the cell count, so the fuel completes the chain
    have hlt_fuel : h cfg.start cfg.goal < cfg.R * cfg.R + 1 := by
      have h1 := (hGI cfg.goal _ hgopt).2
      have h2 := @discF_card_le cfg.R t
      omega
    have hle := chainList_length_le hI (cfg.R * cfg.R + 1) cfg.goal _ hgopt
    have hge := chainList_length_ge hI hE.cfadj (h cfg.start cfg.goal)
      (h cfg.start cfg.goal) cfg.goal (cfg.R * cfg.R + 1) le_rfl hgopt hlt_fuel
    omega

end Astar

namespace Astar

/-- The result of the 5×5 scenario run (it succeeds). -/
def run5 : Bool × SState := (algorithm cfg5 colors5).getD (false, initState cfg5 colors5)

theorem C3_witness :
    cfg5.nbrs = updateNeighbors cfg5.R colors5 ∧
    (∀ p, colors5 p ≠ Color.black) ∧
    (cfg5.start.1 < cfg5.R ∧ cfg5.start.2 < cfg5.R) ∧
    (cfg5.goal.1 < cfg5.R ∧ cfg5.goal.2 < cfg5.R) ∧
    cfg5.start ≠ cfg5.goal ∧
    (∃ s', algorithm cfg5 colors5 = some (true, s') ∧
      (chainList (cfg5.R * cfg5.R + 1) s'.cameFrom cfg5.goal).length =
        h cfg5.start cfg5.goal) ∧
    h cfg5.start cfg5.goal = 8 ∧
    (cfg5.goal :: chainList (cfg5.R * cfg5.R + 1) run5.2.cameFrom cfg5.goal).length = 9 ∧
    cfg5.start ∈ cfg5.goal :: chainList (cfg5.R * cfg5.R + 1) run5.2.cameFrom cfg5.goal :=
  ⟨rfl,
   by intro p; simp only [colors5]; split_ifs <;> decide,
   by decide, by decide, by decide,
   C3_empty_grid_manhattan cfg5 colors5 rfl
     (by intro p; simp only [colors5]; split_ifs <;> decide)
     (by decide) (by decide) (by decide),
   by decide, by decide, by decide⟩

end Astar
